import Mathlib

/-!
Shallow embedding of the MultiTaxiDomain planning core: the grid graph and
shortest-path queries of `EnvGraph` (src/SocailTaxi/SocailTaxiWrapper.py),
the assignment routines of `TaskAllocator` (src/TaskAllocator.py) and the
detour planner of `SocialTaxi` (src/SocailTaxi/SocailTaxiWrapper.py).

Modelling conventions: Python exceptions are `Option.none`; Python dicts are
association lists in insertion order; coordinates `[row, col]` are pairs of
naturals; node-index deltas are integers.
-/

namespace MultiTaxi

abbrev Cor := Nat × Nat

/-- Grid graph built by `EnvGraph.__init__` from the textual map description:
`rows = len(desc) - 2`, `cols = len(desc[0]) // 2`, plus the edge list. -/
structure EnvGraph where
  rows : Nat
  cols : Nat
  edges : List (Nat × Nat)
deriving DecidableEq

/-- `EnvGraph.node_to_cors`: node index to `[row, column]`. -/
def node_to_cors (g : EnvGraph) (node : Nat) : Cor :=
  (node / g.cols, node % g.cols)

/-- `EnvGraph.cors_to_node`: `[row, column]` to node index. -/
def cors_to_node (g : EnvGraph) (c : Cor) : Nat :=
  c.1 * g.cols + c.2

/-- Character lookup `desc[r][c]`; out of range yields a blank, which matches
neither wall test used in the construction below. -/
def getCh (desc : List (List Char)) (r c : Nat) : Char :=
  (desc.getD r []).getD c ' '

/-- Edge list built by `EnvGraph.__init__`: for each node `i` (with
`row = i / cols`, `col = i % cols`), an edge south to `cors_to_node (row+1) col`
when `desc[row+2][col*2+1] != '-'`, and an edge east to
`cors_to_node row (col+1)` when `desc[row+1][col*2+2] == ':'`. -/
def buildEdges (desc : List (List Char)) (rows cols : Nat) : List (Nat × Nat) :=
  (List.range (rows * cols)).flatMap (fun i =>
    (if getCh desc (i / cols + 2) (i % cols * 2 + 1) ≠ '-' then
      [(i, (i / cols + 1) * cols + i % cols)] else []) ++
    (if getCh desc (i / cols + 1) (i % cols * 2 + 2) = ':' then
      [(i, i / cols * cols + (i % cols + 1))] else []))

/-- `EnvGraph.__init__` over a map description. -/
def EnvGraph.build (desc : List (List Char)) : EnvGraph :=
  { rows := desc.length - 2
    cols := (desc.headD []).length / 2
    edges := buildEdges desc (desc.length - 2) ((desc.headD []).length / 2) }

/-- Undirected adjacency of the networkx graph (edges are stored once,
adjacency is symmetric). -/
def adj (g : EnvGraph) (u v : Nat) : Prop :=
  (u, v) ∈ g.edges ∨ (v, u) ∈ g.edges

instance (g : EnvGraph) (u v : Nat) : Decidable (adj g u v) := by
  unfold adj; exact inferInstance

/-- A walk of `n` hops from `u` to `v` along the adjacency relation; the
graph distance between `u` and `v` is the least such `n`. -/
inductive ReachesIn (g : EnvGraph) : Nat → Nat → Nat → Prop
  | refl (u : Nat) : ReachesIn g u u 0
  | step {u w v n : Nat} : adj g u w → ReachesIn g w v n → ReachesIn g u v (n + 1)

/-- Every edge the well-formed map construction can produce: an east edge
inside a row, or a south edge inside a column. -/
def properEdge (g : EnvGraph) (e : Nat × Nat) : Prop :=
  (e.1 % g.cols + 1 < g.cols ∧ e.1 / g.cols < g.rows ∧ e.2 = e.1 + 1) ∨
  (e.1 / g.cols + 1 < g.rows ∧ e.1 % g.cols < g.cols ∧ e.2 = e.1 + g.cols)

instance (g : EnvGraph) (e : Nat × Nat) : Decidable (properEdge g e) := by
  unfold properEdge; exact inferInstance

/-- All edges of the graph are proper grid edges. -/
def proper (g : EnvGraph) : Prop :=
  ∀ e ∈ g.edges, properEdge g e

instance (g : EnvGraph) : Decidable (proper g) :=
  List.decidableBAll _ _

/-- Neighbours of a node, in increasing node order. -/
def nbrs (g : EnvGraph) (u : Nat) : List Nat :=
  (List.range (g.rows * g.cols)).filter (fun v => decide (adj g u v))

/-- One breadth-first expansion step: keep the current set and add all of
its neighbours. -/
def expand (g : EnvGraph) (s : List Nat) : List Nat :=
  (s ++ s.flatMap (nbrs g)).dedup

/-- Nodes reachable from `u` in at most `k` hops. -/
def reachK (g : EnvGraph) (u : Nat) : Nat → List Nat
  | 0 => [u]
  | k + 1 => expand g (reachK g u k)

/-- Modelled from the spec: the repository calls networkx's `shortest_path`,
whose source is not part of this repository; the spec requires an unweighted
breadth-first shortest path.  `bfsDist` returns the graph distance (least hop
count) whenever the target is reachable, searching up to the node count. -/
def bfsDist (g : EnvGraph) (u v : Nat) : Option Nat :=
  (List.range (g.rows * g.cols + 1)).find? (fun k => (reachK g u k).contains v)

/-- Modelled from the spec: deterministic extraction of one shortest path
("the choice is deterministic but unspecified"), stepping to the
lowest-indexed neighbour that is one hop closer to the target. -/
def pathAux (g : EnvGraph) (t : Nat) : Nat → Nat → List Nat
  | 0, _ => []
  | k + 1, u =>
    match (nbrs g u).find? (fun w => bfsDist g w t == some k) with
    | some w => w :: pathAux g t k w
    | none => []

/-- Direction decoding of `EnvGraph.get_path`: delta `-1` is West (3),
`+1` is East (2), `-cols` is North (1), and anything else falls into the
final `else` branch, South (0). -/
def decodeAction (cols : Nat) (delta : Int) : Nat :=
  if delta = -1 then 3
  else if delta = 1 then 2
  else if delta = -(cols : Int) then 1
  else 0

/-- Actions of `EnvGraph.get_path`: one decoded delta per consecutive pair
of node indices along the path. -/
def decodeActions (cols : Nat) : List Nat → List Nat
  | a :: b :: rest => decodeAction cols ((b : Int) - (a : Int)) :: decodeActions cols (b :: rest)
  | _ => []

/-- `EnvGraph.get_path`: equal endpoints give two empty lists; otherwise the
node path of a breadth-first shortest path is converted to coordinates
(dropping the origin) and to direction actions.  A networkx no-path
exception is `none`. -/
def get_path (g : EnvGraph) (origin target : Cor) : Option (List Cor × List Nat) :=
  let node_origin := cors_to_node g origin
  let node_target := cors_to_node g target
  if node_origin = node_target then some ([], [])
  else
    match bfsDist g node_origin node_target with
    | none => none
    | some d =>
      let path := node_origin :: pathAux g node_target d node_origin
      some ((path.map (node_to_cors g)).drop 1, decodeActions g.cols path)

/-- Length of the coordinate list of `get_path` — the repository uses
`len(self.env_graph.get_path(a, b)[0])` as the distance between `a` and `b`. -/
def pathLen (g : EnvGraph) (a b : Cor) : Option Nat :=
  (get_path g a b).map (fun r => r.1.length)

/-- Action semantics on coordinates: 0 = South, 1 = North, 2 = East,
3 = West. -/
def applyAction (c : Cor) (a : Nat) : Cor :=
  if a = 0 then (c.1 + 1, c.2)
  else if a = 1 then (c.1 - 1, c.2)
  else if a = 2 then (c.1, c.2 + 1)
  else (c.1, c.2 - 1)

/-- Replaying an action list from an origin: `coordinate[i]` is `action[i]`
applied to `coordinate[i-1]` (to the origin for `i = 0`). -/
def replay (o : Cor) : List Nat → List Cor
  | [] => []
  | a :: rest => applyAction o a :: replay (applyAction o a) rest

/-- One comparison step of Python `min`: keep the current best unless the
next element's key is strictly smaller. -/
def minStep {α : Type} (f : α → Int) (best y : α) : α :=
  if f y < f best then y else best

/-- Python `min(iterable, key=f)`: the first element attaining the minimal
key, `none` on an empty iterable (Python raises ValueError). -/
def minBy {α : Type} (f : α → Int) : List α → Option α
  | [] => none
  | x :: xs => some (xs.foldl (minStep f) x)

/-- All ways to pick one element out of a list, each with the remaining
elements in order. -/
def selections {α : Type} : List α → List (α × List α)
  | [] => []
  | x :: xs => (x, xs) :: (selections xs).map (fun s => (s.1, x :: s.2))

/-- Fuel-indexed permutation enumeration; with fuel at least the length this
enumerates all permutations in the order of `itertools.permutations`. -/
def lexPermsF {α : Type} : Nat → List α → List (List α)
  | _, [] => [[]]
  | 0, _ :: _ => []
  | fuel + 1, x :: xs =>
    (selections (x :: xs)).flatMap (fun s => (lexPermsF fuel s.2).map (fun p => s.1 :: p))

/-- `itertools.permutations(l)`: all permutations of `l`; for an input
sorted increasingly the enumeration order is lexicographic. -/
def lexPerms {α : Type} (l : List α) : List (List α) :=
  lexPermsF l.length l

/-- `TaskAllocator.passengers_allocations_cost` over the precomputed distance
matrix `dist`: for every permutation of the passenger indices, the allocation
zipping taxi indices against it, with its total cost.  The Python dict
allocation -> cost is an association list in insertion order (its keys are
pairwise distinct when the two counts are equal). -/
def passengers_allocations_cost (dist : Nat → Nat → Int) (numTaxis numPassengers : Nat) :
    List (List (Nat × Nat) × Int) :=
  (lexPerms (List.range numPassengers)).map (fun perm =>
    let allocation := (List.range numTaxis).zip perm
    (allocation, (allocation.map (fun tp => dist tp.1 tp.2)).sum))

/-- `TaskAllocator.optimal_allocation_minimal_value`:
`min(allocations, key=allocations.get)`, i.e. the first allocation in
insertion order attaining the minimal cost. -/
def optimal_allocation_minimal_value (allocations : List (List (Nat × Nat) × Int)) :
    Option (List (Nat × Nat)) :=
  (minBy (fun a => a.2) allocations).map (fun a => a.1)

/-- The optimal-assignment pipeline with equal taxi and passenger counts:
`passengers_allocations_cost` followed by `optimal_allocation_minimal_value`. -/
def optimal_assignment (dist : Nat → Nat → Int) (n : Nat) : Option (List (Nat × Nat)) :=
  optimal_allocation_minimal_value (passengers_allocations_cost dist n n)

/-- Total cost of the allocation that zips taxis `0..n-1` against the
passenger permutation `perm`. -/
def allocCost (dist : Nat → Nat → Int) (n : Nat) (perm : List Nat) : Int :=
  (((List.range n).zip perm).map (fun tp => dist tp.1 tp.2)).sum

/-- Python `dict.pop(k)` on an association list: remove the key's entry,
failing (KeyError) when the key is absent. -/
def dictPop (d : List (Nat × Int)) (k : Nat) : Option (List (Nat × Int)) :=
  if (d.lookup k).isSome then some (d.eraseP (fun p => decide (p.1 = k))) else none

/-- The pop loop of `taxis_auction_allocation`: remove every already
allocated taxi from the bids on the current passenger. -/
def popAll : List Nat → List (Nat × Int) → Option (List (Nat × Int))
  | [], d => some d
  | k :: ks, d =>
    match dictPop d k with
    | none => none
    | some d' => popAll ks d'

/-- Loop of `TaskAllocator.taxis_auction_allocation` over the passenger
indices; carries the (mutated in place) biddings list and the allocations
dict taxi -> passenger as an association list in insertion order.  Each round
asserts the bid-dict size, pops the allocated taxis, and picks the winning
taxi by Python `min` over the remaining bids. -/
def auctionLoop (numTaxis : Nat) :
    List Nat → List (List (Nat × Int)) → List (Nat × Nat) →
    Option (List (Nat × Nat) × List (List (Nat × Int)))
  | [], bs, alloc => some (alloc, bs)
  | p :: ps, bs, alloc =>
    match bs.get? p with
    | none => none
    | some bids_on_passenger =>
      if bids_on_passenger.length = numTaxis then
        match popAll (alloc.map Prod.fst) bids_on_passenger with
        | none => none
        | some remaining =>
          match minBy (fun q => q.2) remaining with
          | none => none
          | some w => auctionLoop numTaxis ps (bs.set p remaining) (alloc ++ [(w.1, p)])
      else none

/-- `TaskAllocator.taxis_auction_allocation`; the final assert compares the
number of distinct taxi keys of the allocations dict with the passenger
count. -/
def taxis_auction_allocation (numPassengers numTaxis : Nat)
    (biddings : List (List (Nat × Int))) :
    Option (List (Nat × Nat) × List (List (Nat × Int))) :=
  match auctionLoop numTaxis (List.range numPassengers) biddings [] with
  | none => none
  | some (alloc, bs) =>
    if ((alloc.map Prod.fst).dedup).length = numPassengers then some (alloc, bs) else none

/-- The slice of the environment state a `SocialTaxi` reads: passenger
counts, the taxi's location, passenger start locations, destinations and
statuses, and the taxi's allocated passenger index. -/
structure TaxiState where
  numPassengers : Nat
  taxiLoc : Cor
  passStart : List Cor
  passDest : List Cor
  passStatus : List Nat
  passengerIndex : Option Nat
deriving DecidableEq

/-- Python truthiness of the optional passenger index: `None` and `0` are
falsy. -/
def truthyIdx : Option Nat → Bool
  | none => false
  | some i => decide (i ≠ 0)

/-- `SocialTaxi.compute_shortest_path`: with no destination given, a truthy
passenger index sends the taxi to that passenger's destination, otherwise
the path is set empty; with a destination, the shortest path to it. -/
def compute_shortest_path (g : EnvGraph) (st : TaxiState) (dest : Option Cor) :
    Option (List Cor × List Nat) :=
  match dest with
  | some d => get_path g st.taxiLoc d
  | none =>
    if truthyIdx st.passengerIndex then
      match st.passengerIndex with
      | none => none
      | some i =>
        match st.passDest.get? i with
        | none => none
        | some d => get_path g st.taxiLoc d
    else some ([], [])

/-- `SocialTaxi.compute_optimal_path`: path from the taxi's location to its
own passenger's start, concatenated with the path from there to the
passenger's destination. -/
def compute_optimal_path (g : EnvGraph) (st : TaxiState) :
    Option (List Cor × List Nat) :=
  match st.passengerIndex with
  | none => none
  | some i =>
    match st.passStart.get? i, st.passDest.get? i with
    | some ps, some pd =>
      match get_path g st.taxiLoc ps, get_path g ps pd with
      | some (c1, a1), some (c2, a2) => some (c1 ++ c2, a1 ++ a2)
      | _, _ => none
    | _, _ => none

/-- The scan of `SocialTaxi.get_optimal_socail_drop_off` over the optimal
path coordinates, carrying the best coordinate and best length so far and
replacing it whenever the current length is less than or equal. -/
def dropOffFold (g : EnvGraph) (dest : Cor) : List Cor → Cor × Nat → Option (Cor × Nat)
  | [], best => some best
  | c :: cs, best =>
    match pathLen g c dest with
    | none => none
    | some pl =>
      if pl ≤ best.2 then dropOffFold g dest cs (c, pl) else dropOffFold g dest cs best

/-- `SocialTaxi.get_optimal_socail_drop_off`: initialises the best drop-off
with the last coordinate of the optimal path (IndexError on an empty path is
`none`), then scans every path coordinate. -/
def get_optimal_socail_drop_off (g : EnvGraph) (st : TaxiState) (otherIdx : Nat) :
    Option (Cor × Nat) :=
  match st.passDest.get? otherIdx with
  | none => none
  | some passenger_destination =>
    match compute_optimal_path g st with
    | none => none
    | some (optimal_path_cor, _) =>
      match optimal_path_cor.getLast? with
      | none => none
      | some lastCor =>
        match pathLen g lastCor passenger_destination with
        | none => none
        | some l0 =>
          dropOffFold g passenger_destination optimal_path_cor (lastCor, l0)

/-- Python `other_passenger_index != self.passenger_index` (comparison with
`None` is always true). -/
def neqPassengerIndex (st : TaxiState) (i : Nat) : Bool :=
  match st.passengerIndex with
  | none => true
  | some j => decide (i ≠ j)

/-- Scan loop of `SocialTaxi.get_close_passengers` over passenger indices.
The pick-up and drop-off variables never survive an iteration (each branch
assigning them returns), so only the social passenger index is carried. -/
def gcpGo (g : EnvGraph) (st : TaxiState) (current_cor : Cor) (threshold : Nat) :
    List Nat → Option Nat → Option (Option Cor × Option Cor × Option Nat)
  | [], social => some (none, none, social)
  | i :: rest, social =>
    if neqPassengerIndex st i then
      match st.passStatus.get? i with
      | none => none
      | some stat =>
        if stat = 2 then
          match st.passStart.get? i, st.passDest.get? i with
          | some social_passenger_location, some social_passenger_destination =>
            match get_path g current_cor social_passenger_location with
            | none => none
            | some (_, actions_path) =>
              match pathLen g social_passenger_location social_passenger_destination with
              | none => none
              | some curDist =>
                if actions_path.length ≤ threshold then
                  match get_optimal_socail_drop_off g st i with
                  | none => none
                  | some (drop_off_cor, distance_from_drop_off) =>
                    if curDist ≤ distance_from_drop_off then some (none, none, none)
                    else some (some social_passenger_location, some drop_off_cor, some i)
                else gcpGo g st current_cor threshold rest (some i)
          | _, _ => none
        else gcpGo g st current_cor threshold rest social
    else gcpGo g st current_cor threshold rest social

/-- `SocialTaxi.get_close_passengers`: scan the passengers in index order. -/
def get_close_passengers (g : EnvGraph) (st : TaxiState) (current_cor : Cor)
    (threshold : Nat) : Option (Option Cor × Option Cor × Option Nat) :=
  gcpGo g st current_cor threshold (List.range st.numPassengers) none

/-- A single-column two-row map description (one cell per row). -/
def desc1 : List (List Char) :=
  (["+-+", "| |", "| |", "+-+"] : List String).map String.toList

/-- The single-column grid graph: two cells joined by one south edge. -/
def g1 : EnvGraph := EnvGraph.build desc1

/-- A fully open two-by-two map description. -/
def desc2x2 : List (List Char) :=
  (["+---+", "| : |", "| : |", "+---+"] : List String).map String.toList

/-- The open two-by-two grid graph. -/
def g2 : EnvGraph := EnvGraph.build desc2x2

/-- A one-row, six-column open map description. -/
def descLine : List (List Char) :=
  (["+-----------+", "| : : : : : |", "+-----------+"] : List String).map String.toList

/-- The six-cell line graph. -/
def gLine : EnvGraph := EnvGraph.build descLine

/-- Taxi on the line grid: own passenger 0 from (0,3) to (0,5);
passenger 1 waiting at (0,1) with destination (0,2). -/
def stDetour : TaxiState :=
  { numPassengers := 2, taxiLoc := (0, 0), passStart := [(0, 3), (0, 1)]
    passDest := [(0, 5), (0, 2)], passStatus := [0, 2], passengerIndex := some 0 }

/-- Taxi on the two-by-two grid: own passenger 0 from (0,1) to (1,0);
passenger 1 waiting with destination (1,1). -/
def stTie : TaxiState :=
  { numPassengers := 2, taxiLoc := (0, 0), passStart := [(0, 1), (1, 1)]
    passDest := [(1, 0), (1, 1)], passStatus := [0, 2], passengerIndex := some 0 }

/-- Taxi on the two-by-two grid: passenger 1 waiting at (1,1), out of reach
of a zero deviation budget. -/
def stFar : TaxiState :=
  { numPassengers := 2, taxiLoc := (0, 0), passStart := [(0, 1), (1, 1)]
    passDest := [(0, 1), (0, 0)], passStatus := [0, 2], passengerIndex := some 0 }

/-- Taxi state with no waiting passenger (no status equals 2). -/
def stNoWait : TaxiState :=
  { numPassengers := 2, taxiLoc := (0, 0), passStart := [(0, 1), (1, 1)]
    passDest := [(0, 1), (0, 0)], passStatus := [1, 3], passengerIndex := some 0 }

/-- A one-by-two cost matrix (one taxi, two passengers). -/
def distC8 : Nat → Nat → Int := fun t p => ((t + p : Nat) : Int)

/-- A concrete two-by-two cost matrix. -/
def distW : Nat → Nat → Int :=
  fun t p => if t = 0 then (if p = 0 then 3 else 1) else (if p = 0 then 2 else 4)

/-- Concrete biddings of two taxis on two passengers (a tie on passenger 0). -/
def bidsW : List (List (Nat × Int)) := [[(0, 5), (1, 5)], [(0, 1), (1, 9)]]

/-- Taxi `t` wins passenger `p` in the auction: `t` bids on `p`, and among
all taxis not assigned to an earlier passenger its bid is minimal, with a
strictly smaller bid than any lower-indexed eligible taxi (ties break to the
lowest taxi index). -/
def winningBid (biddings : List (List (Nat × Int))) (alloc : List (Nat × Nat))
    (p t : Nat) : Prop :=
  ∃ d, biddings.get? p = some d ∧ ∃ b, (t, b) ∈ d ∧
    ∀ t' b', (t', b') ∈ d → t' ∉ (alloc.take p).map Prod.fst →
      b ≤ b' ∧ (t' < t → b < b')

theorem foldlMin_mem {α : Type} (f : α → Int) :
    ∀ (xs : List α) (x : α), xs.foldl (minStep f) x ∈ x :: xs := by
  intro xs
  induction xs with
  | nil => intro x; simp
  | cons y ys ih =>
    intro x
    simp only [List.foldl_cons]
    rcases List.mem_cons.mp (ih (minStep f x y)) with h | h
    · rw [h]; unfold minStep
      by_cases hc : f y < f x <;> simp [hc]
    · simp [List.mem_cons, h]

theorem minStep_le_left {α : Type} (f : α → Int) (x y : α) : f (minStep f x y) ≤ f x := by
  unfold minStep
  by_cases hc : f y < f x
  · simpa [hc] using le_of_lt hc
  · simp [hc]

theorem minStep_le_right {α : Type} (f : α → Int) (x y : α) : f (minStep f x y) ≤ f y := by
  unfold minStep
  by_cases hc : f y < f x
  · simp [hc]
  · simpa [hc] using le_of_not_lt hc

theorem foldlMin_le_init {α : Type} (f : α → Int) :
    ∀ (xs : List α) (x : α), f (xs.foldl (minStep f) x) ≤ f x := by
  intro xs
  induction xs with
  | nil => intro x; simp
  | cons z zs ih =>
    intro x
    simp only [List.foldl_cons]
    exact le_trans (ih (minStep f x z)) (minStep_le_left f x z)

theorem foldlMin_le {α : Type} (f : α → Int) :
    ∀ (xs : List α) (x : α), ∀ y ∈ x :: xs, f (xs.foldl (minStep f) x) ≤ f y := by
  intro xs
  induction xs with
  | nil => intro x y hy; simp at hy; simp [hy]
  | cons z zs ih =>
    intro x y hy
    simp only [List.foldl_cons]
    rcases List.mem_cons.mp hy with h | hy
    · rw [h]
      exact le_trans (foldlMin_le_init f zs (minStep f x z)) (minStep_le_left f x z)
    · rcases List.mem_cons.mp hy with h | hy
      · rw [h]
        exact le_trans (foldlMin_le_init f zs (minStep f x z)) (minStep_le_right f x z)
      · exact ih _ _ (List.mem_cons_of_mem _ hy)

theorem foldlMin_first {α : Type} (f : α → Int) :
    ∀ (xs : List α) (x : α), ∃ l1 l2, x :: xs = l1 ++ (xs.foldl (minStep f) x) :: l2 ∧
      ∀ z ∈ l1, f (xs.foldl (minStep f) x) < f z := by
  intro xs
  induction xs with
  | nil => intro x; exact ⟨[], [], rfl, by simp⟩
  | cons y ys ih =>
    intro x
    simp only [List.foldl_cons]
    by_cases hc : f y < f x
    · rw [show minStep f x y = y from if_pos hc]
      obtain ⟨l1, l2, heq, hstrict⟩ := ih y
      refine ⟨x :: l1, l2, ?_, ?_⟩
      · rw [List.cons_append, ← heq]
      · intro z hz
        rcases List.mem_cons.mp hz with h | hz
        · rw [h]
          exact lt_of_le_of_lt (foldlMin_le_init f ys y) hc
        · exact hstrict z hz
    · rw [show minStep f x y = x from if_neg hc]
      obtain ⟨l1, l2, heq, hstrict⟩ := ih x
      push_neg at hc
      cases l1 with
      | nil =>
        simp only [List.nil_append, List.cons.injEq] at heq
        refine ⟨[], y :: ys, ?_, by simp⟩
        rw [List.nil_append, ← heq.1]
      | cons a l1' =>
        simp only [List.cons_append, List.cons.injEq] at heq
        have hx : f (ys.foldl (minStep f) x) < f x := by
          have h1 := hstrict a (List.mem_cons_self _ _)
          rwa [← heq.1] at h1
        refine ⟨x :: y :: l1', l2, ?_, ?_⟩
        · conv_lhs => rw [heq.2]
          simp
        · intro z hz
          rcases List.mem_cons.mp hz with h | hz
          · rw [h]; exact hx
          · rcases List.mem_cons.mp hz with h | hz
            · rw [h]; exact lt_of_lt_of_le hx hc
            · exact hstrict z (List.mem_cons_of_mem _ hz)

theorem minBy_spec {α : Type} (f : α → Int) {l : List α} {r : α}
    (h : minBy f l = some r) :
    r ∈ l ∧ (∀ y ∈ l, f r ≤ f y) ∧
      ∃ l1 l2, l = l1 ++ r :: l2 ∧ ∀ z ∈ l1, f r < f z := by
  cases l with
  | nil => simp [minBy] at h
  | cons x xs =>
    simp only [minBy, Option.some.injEq] at h
    subst h
    exact ⟨foldlMin_mem f xs x, foldlMin_le f xs x, foldlMin_first f xs x⟩

theorem minBy_isSome {α : Type} (f : α → Int) {l : List α} (h : l ≠ []) :
    ∃ r, minBy f l = some r := by
  cases l with
  | nil => exact absurd rfl h
  | cons x xs => exact ⟨_, rfl⟩

theorem minStep_map {α β : Type} (f : β → Int) (h : α → β) (x y : α) :
    minStep f (h x) (h y) = h (minStep (fun a => f (h a)) x y) := by
  unfold minStep
  by_cases hc : f (h y) < f (h x) <;> simp [hc]

theorem minBy_map {α β : Type} (f : β → Int) (h : α → β) (l : List α) :
    minBy f (l.map h) = Option.map h (minBy (fun a => f (h a)) l) := by
  cases l with
  | nil => simp [minBy]
  | cons x xs =>
    simp only [List.map_cons, minBy, Option.map_some']
    congr 1
    rw [List.foldl_map]
    induction xs generalizing x with
    | nil => simp
    | cons y ys ih =>
      simp only [List.foldl_cons]
      rw [minStep_map f h x y, ih]

theorem mem_selections {α : Type} :
    ∀ {l : List α} {y : α} {ys : List α},
      (y, ys) ∈ selections l ↔ ∃ l1 l2, l = l1 ++ y :: l2 ∧ ys = l1 ++ l2 := by
  intro l
  induction l with
  | nil =>
    intro y ys
    constructor
    · intro h; simp [selections] at h
    · rintro ⟨l1, l2, h1, _⟩
      exact absurd h1 (by simp)
  | cons x xs ih =>
    intro y ys
    simp only [selections, List.mem_cons, List.mem_map, Prod.mk.injEq]
    constructor
    · rintro (⟨h1, h2⟩ | ⟨⟨y', ys'⟩, hmem, h1, h2⟩)
      · exact ⟨[], xs, by rw [h1]; simp, by rw [h2]; simp⟩
      · obtain ⟨l1, l2, hx1, hx2⟩ := ih.mp hmem
        refine ⟨x :: l1, l2, ?_, ?_⟩
        · rw [← h1, hx1]; simp
        · rw [← h2, hx2]; simp
    · rintro ⟨l1, l2, h1, h2⟩
      cases l1 with
      | nil =>
        simp only [List.nil_append, List.cons.injEq] at h1
        left
        exact ⟨h1.1.symm, by rw [h2, h1.2]; simp⟩
      | cons a l1' =>
        simp only [List.cons_append, List.cons.injEq] at h1
        right
        refine ⟨(y, l1' ++ l2), ih.mpr ⟨l1', l2, h1.2, rfl⟩, rfl, ?_⟩
        rw [h2, h1.1]; simp

theorem selections_snd_length {α : Type} {l : List α} {y : α} {ys : List α}
    (h : (y, ys) ∈ selections l) : ys.length + 1 = l.length := by
  obtain ⟨l1, l2, h1, h2⟩ := mem_selections.mp h
  subst h1; subst h2
  simp
  omega

theorem mem_lexPermsF {α : Type} :
    ∀ (fuel : Nat) (l p : List α), l.length ≤ fuel →
      (p ∈ lexPermsF fuel l ↔ p.Perm l) := by
  intro fuel
  induction fuel with
  | zero =>
    intro l p hl
    rw [Nat.le_zero, List.length_eq_zero] at hl
    subst hl
    simp [lexPermsF, List.perm_nil]
  | succ fuel ih =>
    intro l p hl
    cases l with
    | nil => simp [lexPermsF, List.perm_nil]
    | cons x xs =>
      simp only [lexPermsF, List.mem_flatMap, List.mem_map]
      constructor
      · rintro ⟨⟨y, ys⟩, hs, p', hp', rfl⟩
        obtain ⟨l1, l2, h1, h2⟩ := mem_selections.mp hs
        have hlen : ys.length ≤ fuel := by
          have h0 := selections_snd_length hs
          simp only [List.length_cons] at hl h0
          omega
        have hperm : p'.Perm ys := (ih ys p' hlen).mp hp'
        rw [h1]
        have s1 : (y :: p').Perm (y :: (l1 ++ l2)) := by
          rw [← h2]; exact hperm.cons y
        exact s1.trans List.perm_middle.symm
      · intro hp
        cases p with
        | nil => exact absurd hp.symm (by simp [List.perm_nil])
        | cons y p' =>
          have hy : y ∈ x :: xs := hp.subset (List.mem_cons_self y p')
          obtain ⟨l1, l2, h1⟩ := List.append_of_mem hy
          have hsel : (y, l1 ++ l2) ∈ selections (x :: xs) :=
            mem_selections.mpr ⟨l1, l2, h1, rfl⟩
          have hp' : p'.Perm (l1 ++ l2) := by
            have hx1 : (y :: p').Perm (l1 ++ y :: l2) := by
              rw [← h1]; exact hp
            exact (hx1.trans List.perm_middle).cons_inv
          have hlen : (l1 ++ l2).length ≤ fuel := by
            have h3 : (x :: xs).length = l1.length + (y :: l2).length := by
              rw [h1]; simp
            simp only [List.length_cons, List.length_append] at h3 hl ⊢
            omega
          exact ⟨(y, l1 ++ l2), hsel, p', (ih _ _ hlen).mpr hp', rfl⟩

theorem mem_lexPerms {α : Type} {l p : List α} : p ∈ lexPerms l ↔ p.Perm l :=
  mem_lexPermsF l.length l p (le_refl _)

theorem selections_fst_mem {α : Type} {l : List α} {y : α} {ys : List α}
    (h : (y, ys) ∈ selections l) : y ∈ l := by
  obtain ⟨l1, l2, h1, _⟩ := mem_selections.mp h
  rw [h1]
  exact List.mem_append_right l1 (List.mem_cons_self y l2)

theorem selections_snd_sorted {l : List Nat} {y : Nat} {ys : List Nat}
    (hs : l.Pairwise (· < ·)) (h : (y, ys) ∈ selections l) : ys.Pairwise (· < ·) := by
  obtain ⟨l1, l2, h1, h2⟩ := mem_selections.mp h
  subst h2
  refine List.Pairwise.sublist ?_ (h1 ▸ hs)
  exact List.Sublist.append_left (List.sublist_cons_self y l2) l1

theorem selections_pairwise_fst {l : List Nat} (hs : l.Pairwise (· < ·)) :
    (selections l).Pairwise (fun s t => s.1 < t.1) := by
  induction l with
  | nil => simp [selections]
  | cons x xs ih =>
    rcases List.pairwise_cons.mp hs with ⟨hx, hxs⟩
    simp only [selections]
    refine List.pairwise_cons.mpr ⟨?_, ?_⟩
    · intro t ht
      obtain ⟨s, hsmem, rfl⟩ := List.mem_map.mp ht
      exact hx s.1 (selections_fst_mem (by simpa using hsmem))
    · rw [List.pairwise_map]
      exact ih hxs

theorem sortedLex_lexPermsF :
    ∀ (fuel : Nat) (l : List Nat), l.length ≤ fuel → l.Pairwise (· < ·) →
      (lexPermsF fuel l).Pairwise (List.Lex (· < ·)) := by
  intro fuel
  induction fuel with
  | zero =>
    intro l hl _
    rw [Nat.le_zero, List.length_eq_zero] at hl
    subst hl
    simp [lexPermsF]
  | succ fuel ih =>
    intro l hl hsorted
    cases l with
    | nil => simp [lexPermsF]
    | cons x xs =>
      rw [lexPermsF, List.pairwise_flatMap]
      constructor
      · rintro ⟨y, ys⟩ hs
        rw [List.pairwise_map]
        have hlen : ys.length ≤ fuel := by
          have h0 := selections_snd_length hs
          simp only [List.length_cons] at hl h0
          omega
        refine List.Pairwise.imp ?_ (ih ys hlen (selections_snd_sorted hsorted hs))
        intro p q hpq
        exact List.Lex.cons hpq
      · refine List.Pairwise.imp ?_ (selections_pairwise_fst hsorted)
        intro s t hlt p hp q hq
        obtain ⟨p', _, rfl⟩ := List.mem_map.mp hp
        obtain ⟨q', _, rfl⟩ := List.mem_map.mp hq
        exact List.Lex.rel hlt

theorem sortedLex_lexPerms_range (n : Nat) :
    (lexPerms (List.range n)).Pairwise (List.Lex (· < ·)) :=
  sortedLex_lexPermsF _ _ (by simp [lexPerms]) (List.pairwise_lt_range n)

/-- C1: with equal counts `n ≥ 1`, the composed pipeline
`passengers_allocations_cost` / `optimal_allocation_minimal_value` returns the
allocation zipping the taxis `0..n-1` against a permutation of the passenger
indices whose total cost is minimal over all permutations, and among the
minimisers it returns the lexicographically first permutation. -/
theorem c1_optimal_assignment (dist : Nat → Nat → Int) (n : Nat) (_hn : 1 ≤ n) :
    ∃ p : List Nat,
      optimal_assignment dist n = some ((List.range n).zip p) ∧
      p.Perm (List.range n) ∧
      (∀ q : List Nat, q.Perm (List.range n) →
        allocCost dist n p ≤ allocCost dist n q) ∧
      (∀ q : List Nat, q.Perm (List.range n) →
        allocCost dist n q = allocCost dist n p → q ≠ p → List.Lex (· < ·) p q) := by
  have hne : lexPerms (List.range n) ≠ [] :=
    List.ne_nil_of_mem (mem_lexPerms.mpr (List.Perm.refl _))
  have hcomp : optimal_assignment dist n =
      Option.map (fun p => (List.range n).zip p)
        (minBy (fun p => allocCost dist n p) (lexPerms (List.range n))) := by
    show optimal_allocation_minimal_value (passengers_allocations_cost dist n n) = _
    unfold optimal_allocation_minimal_value passengers_allocations_cost
    rw [minBy_map, Option.map_map]
    rfl
  obtain ⟨r, hr⟩ := minBy_isSome (fun p => allocCost dist n p) hne
  obtain ⟨hmem, hmin, l1, l2, hsplit, hstrict⟩ := minBy_spec _ hr
  refine ⟨r, ?_, mem_lexPerms.mp hmem, ?_, ?_⟩
  · rw [hcomp, hr]; rfl
  · intro q hq
    exact hmin q (mem_lexPerms.mpr hq)
  · intro q hq hcost hne'
    have hqmem : q ∈ lexPerms (List.range n) := mem_lexPerms.mpr hq
    rw [hsplit] at hqmem
    rcases List.mem_append.mp hqmem with h | h
    · exact absurd hcost (by have := hstrict q h; omega)
    · rcases List.mem_cons.mp h with h | h
      · exact absurd h hne'
      · have hsorted := sortedLex_lexPerms_range n
        rw [hsplit] at hsorted
        rcases (List.pairwise_append.mp hsorted) with ⟨_, hp2, _⟩
        exact (List.pairwise_cons.mp hp2).1 q h

/-- Witness for C1 at the concrete two-by-two cost matrix `distW`. -/
theorem c1_optimal_assignment_witness :
    ∃ p : List Nat,
      optimal_assignment distW 2 = some ((List.range 2).zip p) ∧
      p.Perm (List.range 2) ∧
      (∀ q : List Nat, q.Perm (List.range 2) →
        allocCost distW 2 p ≤ allocCost distW 2 q) ∧
      (∀ q : List Nat, q.Perm (List.range 2) →
        allocCost distW 2 q = allocCost distW 2 p → q ≠ p → List.Lex (· < ·) p q) :=
  c1_optimal_assignment distW 2 (by decide)

/-- C8, counterexample: with one taxi and two passengers (unequal counts)
the pipeline raises nothing at all — `passengers_allocations_cost` returns a
normal allocation table (truncated by `zip`) and
`optimal_allocation_minimal_value` returns a normal allocation; no
`AllocationError` exists anywhere in the code. -/
theorem c8_counterexample :
    passengers_allocations_cost distC8 1 2 = [([(0, 0)], 0), ([(0, 1)], 1)] ∧
    optimal_allocation_minimal_value (passengers_allocations_cost distC8 1 2) =
      some [(0, 0)] := by
  exact ⟨rfl, rfl⟩

/-- C8, amended: the pipeline performs no count check and never fails; with
any counts every allocation it builds pairs exactly
`min numTaxis numPassengers` taxi-passenger pairs (`zip` truncation), and the
minimal-value selection always returns a result. -/
theorem c8_amended (dist : Nat → Nat → Int) (numTaxis numPassengers : Nat) :
    (∀ e ∈ passengers_allocations_cost dist numTaxis numPassengers,
      e.1.length = min numTaxis numPassengers) ∧
    ∃ a, optimal_allocation_minimal_value
      (passengers_allocations_cost dist numTaxis numPassengers) = some a := by
  constructor
  · intro e he
    unfold passengers_allocations_cost at he
    obtain ⟨perm, hperm, rfl⟩ := List.mem_map.mp he
    have hlen : perm.length = numPassengers := by
      have := (mem_lexPerms.mp hperm).length_eq
      simpa using this
    simp [List.length_zip, hlen]
  · have hne : passengers_allocations_cost dist numTaxis numPassengers ≠ [] := by
      unfold passengers_allocations_cost
      exact List.ne_nil_of_mem
        (List.mem_map_of_mem _ (mem_lexPerms.mpr (List.Perm.refl _)))
    obtain ⟨r, hr⟩ := minBy_isSome (fun a => a.2) hne
    exact ⟨r.1, by unfold optimal_allocation_minimal_value; rw [hr]; rfl⟩

theorem mapFst_filter {α β : Type} (q : α → Bool) :
    ∀ d : List (α × β),
      (d.filter (fun pr => q pr.1)).map Prod.fst = (d.map Prod.fst).filter q := by
  intro d
  induction d with
  | nil => simp
  | cons a rest ih =>
    by_cases hq : q a.1 <;> simp [List.filter_cons, hq, ih]

theorem eraseP_eq_filter_of_nodup {k : Nat} :
    ∀ d : List (Nat × Int), (d.map Prod.fst).Nodup →
      d.eraseP (fun p => decide (p.1 = k)) = d.filter (fun p => decide (p.1 ≠ k)) := by
  intro d
  induction d with
  | nil => simp
  | cons a rest ih =>
    intro hnd
    simp only [List.map_cons, List.nodup_cons] at hnd
    by_cases hk : a.1 = k
    · rw [List.eraseP_cons_of_pos (by simp [hk]), List.filter_cons_of_neg (by simp [hk])]
      symm
      apply List.filter_eq_self.mpr
      intro pr hpr
      simp only [decide_eq_true_eq, ne_eq]
      intro he
      apply hnd.1
      rw [hk, ← he]
      exact List.mem_map_of_mem Prod.fst hpr
    · rw [List.eraseP_cons_of_neg (by simp [hk]), List.filter_cons_of_pos (by simp [hk])]
      rw [ih hnd.2]

theorem dictPop_eq {k : Nat} {d : List (Nat × Int)} (hnd : (d.map Prod.fst).Nodup)
    (hk : k ∈ d.map Prod.fst) :
    dictPop d k = some (d.filter (fun p => decide (p.1 ≠ k))) := by
  have hsome : (d.lookup k).isSome := by
    rw [List.lookup_isSome_iff]
    obtain ⟨p, hp, hpe⟩ := List.mem_map.mp hk
    exact ⟨p, hp, by simp [hpe]⟩
  rw [dictPop, if_pos hsome, eraseP_eq_filter_of_nodup d hnd]

theorem popAll_filter :
    ∀ (S : List Nat) (d : List (Nat × Int)), S.Nodup →
      (∀ t ∈ S, t ∈ d.map Prod.fst) → (d.map Prod.fst).Nodup →
      popAll S d = some (d.filter (fun p => decide (p.1 ∉ S))) := by
  intro S
  induction S with
  | nil =>
    intro d _ _ _
    rw [popAll]
    congr 1
    symm
    apply List.filter_eq_self.mpr
    intro pr _
    simp
  | cons k S' ih =>
    intro d hnd hsub hdk
    have hk : k ∈ d.map Prod.fst := hsub k (List.mem_cons_self _ _)
    rw [popAll, dictPop_eq hdk hk]
    show popAll S' (d.filter (fun p => decide (p.1 ≠ k))) = _
    have hnd' := List.nodup_cons.mp hnd
    have hkeys : ((d.filter (fun p => decide (p.1 ≠ k))).map Prod.fst)
        = (d.map Prod.fst).filter (fun t => decide (t ≠ k)) :=
      mapFst_filter (fun t => decide (t ≠ k)) d
    have hsub' : ∀ t ∈ S', t ∈ (d.filter (fun p => decide (p.1 ≠ k))).map Prod.fst := by
      intro t ht
      rw [hkeys, List.mem_filter]
      refine ⟨hsub t (List.mem_cons_of_mem _ ht), ?_⟩
      simp only [decide_eq_true_eq, ne_eq]
      intro he
      exact hnd'.1 (he ▸ ht)
    have hdk' : ((d.filter (fun p => decide (p.1 ≠ k))).map Prod.fst).Nodup := by
      rw [hkeys]
      exact hdk.filter _
    rw [ih _ hnd'.2 hsub' hdk']
    congr 1
    rw [List.filter_filter]
    apply List.filter_congr
    intro pr _
    simp [List.mem_cons, not_or, Bool.and_comm]

theorem filter_length_lt {α : Type} (p : α → Bool) :
    ∀ (l : List α) (x : α), x ∈ l → p x = false → (l.filter p).length < l.length := by
  intro l
  induction l with
  | nil => intro x hx; intro _; simp at hx
  | cons a rest ih =>
    intro x hx hpx
    rcases List.mem_cons.mp hx with h | h
    · have hpa : p a = false := by rw [← h]; exact hpx
      rw [List.filter_cons_of_neg (by simp [hpa])]
      have := List.length_filter_le p rest
      simp only [List.length_cons]
      omega
    · by_cases hpa : p a
      · rw [List.filter_cons_of_pos hpa]
        have := ih x h hpx
        simp only [List.length_cons]
        omega
      · rw [List.filter_cons_of_neg hpa]
        have := ih x h hpx
        simp only [List.length_cons]
        omega

theorem winningBid_take_congr {biddings : List (List (Nat × Int))}
    {alloc alloc2 : List (Nat × Nat)} {p t : Nat}
    (htake : alloc2.take p = alloc.take p) (h : winningBid biddings alloc p t) :
    winningBid biddings alloc2 p t := by
  unfold winningBid at h ⊢
  rw [htake]
  exact h

theorem auctionLoop_spec (n : Nat) (biddings : List (List (Nat × Int)))
    (hb : ∀ p, p < n → ∃ d, biddings.get? p = some d ∧ d.map Prod.fst = List.range n) :
    ∀ (m k : Nat), k + m = n →
      ∀ (bs : List (List (Nat × Int))) (alloc : List (Nat × Nat)),
      alloc.map Prod.snd = List.range k →
      (alloc.map Prod.fst).Nodup →
      (∀ t ∈ alloc.map Prod.fst, t < n) →
      (∀ q, k ≤ q → bs.get? q = biddings.get? q) →
      (∀ t p, (t, p) ∈ alloc → winningBid biddings alloc p t) →
      (∀ p, p < k → ∃ d, biddings.get? p = some d ∧
        bs.get? p = some (d.filter (fun pr => decide (pr.1 ∉ (alloc.take p).map Prod.fst)))) →
      ∃ allocF bsF,
        auctionLoop n (List.range' k m) bs alloc = some (allocF, bsF) ∧
        alloc <+: allocF ∧
        allocF.map Prod.snd = List.range n ∧
        (allocF.map Prod.fst).Nodup ∧
        (∀ t ∈ allocF.map Prod.fst, t < n) ∧
        (∀ t p, (t, p) ∈ allocF → winningBid biddings allocF p t) ∧
        (∀ p, p < n → ∃ d, biddings.get? p = some d ∧
          bsF.get? p = some (d.filter (fun pr => decide (pr.1 ∉ (allocF.take p).map Prod.fst)))) := by
  intro m
  induction m with
  | zero =>
    intro k hk bs alloc hsnd hnodup hlt hbs hwin hpb
    have hkn : k = n := by omega
    subst hkn
    refine ⟨alloc, bs, by simp [auctionLoop], List.prefix_refl _, hsnd, hnodup, hlt, hwin, ?_⟩
    exact fun p hp => hpb p hp
  | succ m ih =>
    intro k hk bs alloc hsnd hnodup hlt hbs hwin hpb
    have hkn : k < n := by omega
    obtain ⟨d, hd, hdkeys⟩ := hb k hkn
    have hbsk : bs.get? k = some d := by rw [hbs k (le_refl k), hd]
    have hdlen : d.length = n := by
      have h0 : (d.map Prod.fst).length = n := by rw [hdkeys]; simp
      simpa using h0
    have halloclen : alloc.length = k := by
      have h0 : (alloc.map Prod.snd).length = k := by rw [hsnd]; simp
      simpa using h0
    have hS : ∀ t ∈ alloc.map Prod.fst, t ∈ d.map Prod.fst := by
      intro t ht; rw [hdkeys]; exact List.mem_range.mpr (hlt t ht)
    have hdnodup : (d.map Prod.fst).Nodup := by rw [hdkeys]; exact List.nodup_range n
    have hpop := popAll_filter (alloc.map Prod.fst) d hnodup hS hdnodup
    have hd'keys : ((d.filter (fun pr => decide (pr.1 ∉ alloc.map Prod.fst))).map Prod.fst)
        = (d.map Prod.fst).filter (fun t => decide (t ∉ alloc.map Prod.fst)) :=
      mapFst_filter (fun t => decide (t ∉ alloc.map Prod.fst)) d
    have hd'ne : d.filter (fun pr => decide (pr.1 ∉ alloc.map Prod.fst)) ≠ [] := by
      intro hemp
      have h0 : (d.map Prod.fst).filter (fun t => decide (t ∉ alloc.map Prod.fst)) = [] := by
        rw [← hd'keys, hemp]; rfl
      have hsubset : (List.range n) ⊆ alloc.map Prod.fst := by
        intro t ht
        by_contra hnt
        have hmem : t ∈ (d.map Prod.fst).filter (fun t => decide (t ∉ alloc.map Prod.fst)) :=
          List.mem_filter.mpr ⟨by rw [hdkeys]; exact ht, by simpa using hnt⟩
        rw [h0] at hmem
        exact absurd hmem (List.not_mem_nil t)
      have hle := (List.subperm_of_subset (List.nodup_range n) hsubset).length_le
      have hlen2 : (alloc.map Prod.fst).length = k := by simpa using halloclen
      rw [hlen2, List.length_range] at hle
      omega
    obtain ⟨w, hw⟩ := minBy_isSome (fun q => q.2) hd'ne
    obtain ⟨hwmem, hwmin, m1, m2, hsplit, hstrict⟩ := minBy_spec _ hw
    have hwd := List.mem_filter.mp hwmem
    have hwnotin : w.1 ∉ alloc.map Prod.fst := by simpa using hwd.2
    have hwlt : w.1 < n := by
      have : w.1 ∈ d.map Prod.fst := List.mem_map_of_mem Prod.fst hwd.1
      rw [hdkeys] at this
      exact List.mem_range.mp this
    have hd'pairs : (d.filter (fun pr => decide (pr.1 ∉ alloc.map Prod.fst))).Pairwise
        (fun a b => a.1 < b.1) := by
      rw [← List.pairwise_map (f := Prod.fst)]
      rw [hd'keys]
      exact List.Pairwise.sublist (List.filter_sublist _) (by rw [hdkeys]; exact List.pairwise_lt_range n)
    -- the new allocation entry
    have htakek : ((alloc ++ [(w.1, k)]).take k) = alloc := List.take_left' halloclen
    have hwink : winningBid biddings (alloc ++ [(w.1, k)]) k w.1 := by
      refine ⟨d, hd, w.2, hwd.1, ?_⟩
      intro t' b' htb htnot
      rw [htakek] at htnot
      have htb' : (t', b') ∈ d.filter (fun pr => decide (pr.1 ∉ alloc.map Prod.fst)) :=
        List.mem_filter.mpr ⟨htb, by simpa using htnot⟩
      refine ⟨hwmin (t', b') htb', ?_⟩
      intro hlt'
      rw [hsplit] at htb' hd'pairs
      rcases List.mem_append.mp htb' with h1 | h1
      · have := hstrict (t', b') h1
        simpa using this
      · rcases List.mem_cons.mp h1 with h1 | h1
        · have ht1 : t' = w.1 := by rw [← h1]
          exact absurd hlt' (by rw [ht1]; exact lt_irrefl _)
        · rcases List.pairwise_append.mp hd'pairs with ⟨_, hp2, _⟩
          have := (List.pairwise_cons.mp hp2).1 (t', b') h1
          omega
    -- step the loop
    have hstep : auctionLoop n (List.range' k (m + 1)) bs alloc =
        auctionLoop n (List.range' (k + 1) m)
          (bs.set k (d.filter (fun pr => decide (pr.1 ∉ alloc.map Prod.fst))))
          (alloc ++ [(w.1, k)]) := by
      rw [List.range'_succ]
      show (match bs.get? k with
        | none => none
        | some bids_on_passenger => _) = _
      rw [hbsk]
      show (if d.length = n then _ else none) = _
      rw [if_pos hdlen]
      show (match popAll (alloc.map Prod.fst) d with
        | none => none
        | some remaining => _) = _
      rw [hpop]
      show (match minBy (fun q => q.2) (d.filter (fun pr => decide (pr.1 ∉ alloc.map Prod.fst))) with
        | none => none
        | some w => _) = _
      rw [hw]
    -- invariants for the recursive call
    have hsnd' : (alloc ++ [(w.1, k)]).map Prod.snd = List.range (k + 1) := by
      rw [List.map_append, hsnd, List.range_succ]
      rfl
    have hnodup' : ((alloc ++ [(w.1, k)]).map Prod.fst).Nodup := by
      rw [List.map_append]
      rw [List.nodup_append]
      refine ⟨hnodup, by simp, ?_⟩
      intro t ht
      simp only [List.map_cons, List.map_nil, List.mem_cons, List.not_mem_nil, or_false]
      intro he
      exact hwnotin (he ▸ ht)
    have hlt' : ∀ t ∈ (alloc ++ [(w.1, k)]).map Prod.fst, t < n := by
      intro t ht
      rw [List.map_append, List.mem_append] at ht
      rcases ht with h1 | h1
      · exact hlt t h1
      · simp only [List.map_cons, List.map_nil, List.mem_cons, List.not_mem_nil, or_false] at h1
        rw [h1]
        exact hwlt
    have hbs' : ∀ q, k + 1 ≤ q →
        (bs.set k (d.filter (fun pr => decide (pr.1 ∉ alloc.map Prod.fst)))).get? q =
          biddings.get? q := by
      intro q hq
      rw [List.get?_eq_getElem?, List.getElem?_set_ne (by omega), ← List.get?_eq_getElem?]
      exact hbs q (by omega)
    have htake_lt : ∀ p, p < k → ((alloc ++ [(w.1, k)]).take p) = alloc.take p := by
      intro p hp
      exact List.take_append_of_le_length (by omega)
    have hwin' : ∀ t p, (t, p) ∈ alloc ++ [(w.1, k)] →
        winningBid biddings (alloc ++ [(w.1, k)]) p t := by
      intro t p htp
      rcases List.mem_append.mp htp with h1 | h1
      · have hpk : p < k := by
          have : p ∈ alloc.map Prod.snd := List.mem_map_of_mem Prod.snd h1
          rw [hsnd] at this
          exact List.mem_range.mp this
        exact winningBid_take_congr (htake_lt p hpk) (hwin t p h1)
      · simp only [List.mem_cons, List.not_mem_nil, or_false, Prod.mk.injEq] at h1
        rw [h1.1, h1.2]
        exact hwink
    have hpb' : ∀ p, p < k + 1 → ∃ d0, biddings.get? p = some d0 ∧
        (bs.set k (d.filter (fun pr => decide (pr.1 ∉ alloc.map Prod.fst)))).get? p =
          some (d0.filter (fun pr => decide (pr.1 ∉ ((alloc ++ [(w.1, k)]).take p).map Prod.fst))) := by
      intro p hp
      by_cases hpk : p < k
      · obtain ⟨d0, hd0, hbsp⟩ := hpb p hpk
        refine ⟨d0, hd0, ?_⟩
        rw [List.get?_eq_getElem?, List.getElem?_set_ne (by omega), ← List.get?_eq_getElem?]
        rw [hbsp, htake_lt p hpk]
      · have hpk' : p = k := by omega
        subst hpk'
        refine ⟨d, hd, ?_⟩
        have hklen : p < bs.length := by
          rcases List.get?_eq_some.mp hbsk with ⟨h1, _⟩
          exact h1
        rw [List.get?_eq_getElem?, List.getElem?_set_self hklen]
        rw [htakek]
    obtain ⟨allocF, bsF, hres, hpre, c1, c2, c3, c4, c5⟩ :=
      ih (k + 1) (by omega) _ _ hsnd' hnodup' hlt' hbs' hwin' hpb'
    refine ⟨allocF, bsF, ?_, ?_, c1, c2, c3, c4, c5⟩
    · rw [hstep]
      exact hres
    · exact List.IsPrefix.trans (List.prefix_append alloc [(w.1, k)]) hpre

theorem auction_run (n : Nat) (biddings : List (List (Nat × Int)))
    (hb : ∀ p, p < n → ∃ d, biddings.get? p = some d ∧ d.map Prod.fst = List.range n) :
    ∃ alloc bs, taxis_auction_allocation n n biddings = some (alloc, bs) ∧
      alloc.map Prod.snd = List.range n ∧
      (alloc.map Prod.fst).Nodup ∧
      (∀ t ∈ alloc.map Prod.fst, t < n) ∧
      (∀ t p, (t, p) ∈ alloc → winningBid biddings alloc p t) ∧
      (∀ p, p < n → ∃ d, biddings.get? p = some d ∧
        bs.get? p = some (d.filter (fun pr => decide (pr.1 ∉ (alloc.take p).map Prod.fst)))) := by
  obtain ⟨allocF, bsF, hres, _, c1, c2, c3, c4, c5⟩ :=
    auctionLoop_spec n biddings hb n 0 (by omega) biddings [] (by simp) (by simp) (by simp)
      (fun q _ => rfl) (by simp) (fun p hp => absurd hp (Nat.not_lt_zero p))
  have hlenF : allocF.length = n := by
    have h0 : (allocF.map Prod.snd).length = n := by rw [c1]; simp
    simpa using h0
  refine ⟨allocF, bsF, ?_, c1, c2, c3, c4, c5⟩
  unfold taxis_auction_allocation
  rw [List.range_eq_range', hres]
  show (if ((allocF.map Prod.fst).dedup).length = n then some (allocF, bsF) else none) =
    some (allocF, bsF)
  rw [c2.dedup]
  rw [if_pos (by simpa using hlenF)]

/-- C6: with equal counts and well-formed biddings (each passenger's dict
holding bids of exactly the taxis `0..n-1`, keyed in index order, as
`get_taxis_bids` builds them), `taxis_auction_allocation` succeeds, assigns
the passengers in increasing index order, gives exactly one passenger per
taxi (the taxi keys are a permutation of `0..n-1`), and each passenger goes
to the eligible taxi with the numerically lowest bid, ties to the lowest
taxi index; the result is a function of the input, hence deterministic. -/
theorem c6_taxis_auction_allocation (n : Nat) (biddings : List (List (Nat × Int)))
    (hb : ∀ p, p < n → ∃ d, biddings.get? p = some d ∧ d.map Prod.fst = List.range n) :
    ∃ alloc bs, taxis_auction_allocation n n biddings = some (alloc, bs) ∧
      alloc.map Prod.snd = List.range n ∧
      (alloc.map Prod.fst).Perm (List.range n) ∧
      (∀ t p, (t, p) ∈ alloc → winningBid biddings alloc p t) := by
  obtain ⟨alloc, bs, hres, c1, c2, c3, c4, _⟩ := auction_run n biddings hb
  refine ⟨alloc, bs, hres, c1, ?_, c4⟩
  have hlen : (alloc.map Prod.fst).length = n := by
    have h0 : (alloc.map Prod.snd).length = n := by rw [c1]; simp
    simpa using h0
  apply (List.subperm_of_subset c2 ?_).perm_of_length_le ?_
  · intro t ht
    exact List.mem_range.mpr (c3 t ht)
  · rw [hlen, List.length_range]

/-- Witness for C6 at the concrete biddings `bidsW` (two taxis, two
passengers, with a tie on passenger 0). -/
theorem c6_taxis_auction_allocation_witness :
    ∃ alloc bs, taxis_auction_allocation 2 2 bidsW = some (alloc, bs) ∧
      alloc.map Prod.snd = List.range 2 ∧
      (alloc.map Prod.fst).Perm (List.range 2) ∧
      (∀ t p, (t, p) ∈ alloc → winningBid bidsW alloc p t) :=
  c6_taxis_auction_allocation 2 bidsW (by
    intro p hp
    match p, hp with
    | 0, _ => exact ⟨[(0, 5), (1, 5)], rfl, rfl⟩
    | 1, _ => exact ⟨[(0, 1), (1, 9)], rfl, rfl⟩)

/-- C10: the auction mutates its biddings argument in place — in the
returned biddings state, every passenger's dict has exactly the entries of
the taxis assigned to earlier passengers removed, and with at least two
passengers the final biddings differ from the input. -/
theorem c10_auction_mutates (n : Nat) (biddings : List (List (Nat × Int)))
    (hb : ∀ p, p < n → ∃ d, biddings.get? p = some d ∧ d.map Prod.fst = List.range n)
    (hn : 2 ≤ n) :
    ∃ alloc bs, taxis_auction_allocation n n biddings = some (alloc, bs) ∧
      (∀ p, p < n → ∃ d, biddings.get? p = some d ∧
        bs.get? p = some (d.filter (fun pr => decide (pr.1 ∉ (alloc.take p).map Prod.fst)))) ∧
      bs ≠ biddings := by
  obtain ⟨alloc, bs, hres, c1, c2, c3, _, c5⟩ := auction_run n biddings hb
  refine ⟨alloc, bs, hres, c5, ?_⟩
  have h1n : 1 < n := by omega
  obtain ⟨d1, hd1, hbs1⟩ := c5 1 h1n
  have hk1 : d1.map Prod.fst = List.range n := by
    obtain ⟨d1', hd1', hk⟩ := hb 1 h1n
    rw [hd1] at hd1'
    rwa [← Option.some.inj hd1'] at hk
  have hlenA : alloc.length = n := by
    have h0 : (alloc.map Prod.snd).length = n := by rw [c1]; simp
    simpa using h0
  cases alloc with
  | nil => rw [List.length_nil] at hlenA; omega
  | cons a rest =>
    have ha1 : a.1 < n :=
      c3 a.1 (List.mem_map_of_mem Prod.fst (List.mem_cons_self a rest))
    have ha1mem : a.1 ∈ d1.map Prod.fst := by
      rw [hk1]
      exact List.mem_range.mpr ha1
    obtain ⟨pr, hpr, hpre'⟩ := List.mem_map.mp ha1mem
    have hpred : decide (pr.1 ∉ (((a :: rest).take 1).map Prod.fst)) = false := by
      simp only [List.take_succ_cons, List.take_zero, List.map_cons, List.map_nil]
      simp [hpre']
    have hltf := filter_length_lt
      (fun pr => decide (pr.1 ∉ (((a :: rest).take 1).map Prod.fst))) d1 pr hpr hpred
    intro heq
    rw [heq, hd1] at hbs1
    have hfe := Option.some.inj hbs1
    rw [← hfe] at hltf
    omega

/-- Witness for C10 at the concrete biddings `bidsW`. -/
theorem c10_auction_mutates_witness :
    ∃ alloc bs, taxis_auction_allocation 2 2 bidsW = some (alloc, bs) ∧
      (∀ p, p < 2 → ∃ d, bidsW.get? p = some d ∧
        bs.get? p = some (d.filter (fun pr => decide (pr.1 ∉ (alloc.take p).map Prod.fst)))) ∧
      bs ≠ bidsW :=
  c10_auction_mutates 2 bidsW (by
    intro p hp
    match p, hp with
    | 0, _ => exact ⟨[(0, 5), (1, 5)], rfl, rfl⟩
    | 1, _ => exact ⟨[(0, 1), (1, 9)], rfl, rfl⟩) (by omega)

theorem divmod_succ_eq {a c : Nat} (h : a % c + 1 < c) :
    (a + 1) / c = a / c ∧ (a + 1) % c = a % c + 1 := by
  have hc : 0 < c := by omega
  have hd := Nat.div_add_mod a c
  constructor
  · conv_lhs => rw [← hd, Nat.add_assoc]
    rw [Nat.mul_add_div hc]
    rw [Nat.div_eq_of_lt h]
    omega
  · conv_lhs => rw [← hd, Nat.add_assoc]
    rw [Nat.mul_add_mod]
    exact Nat.mod_eq_of_lt h

theorem divmod_add_self {a c : Nat} (hc : 0 < c) :
    (a + c) / c = a / c + 1 ∧ (a + c) % c = a % c :=
  ⟨Nat.add_div_right a hc, Nat.add_mod_right a c⟩

theorem properEdge_lt {g : EnvGraph} {e : Nat × Nat} (hp : properEdge g e) :
    e.1 < g.rows * g.cols ∧ e.2 < g.rows * g.cols := by
  rcases hp with ⟨h1, h2, h3⟩ | ⟨h1, h2, h3⟩
  · have hc : 0 < g.cols := by omega
    have he1 : e.1 < g.rows * g.cols := (Nat.div_lt_iff_lt_mul hc).mp h2
    refine ⟨he1, ?_⟩
    rw [h3]
    have hdiv := (divmod_succ_eq h1).1
    have : (e.1 + 1) / g.cols < g.rows := by rw [hdiv]; exact h2
    exact (Nat.div_lt_iff_lt_mul hc).mp this
  · have hc : 0 < g.cols := by omega
    have he1 : e.1 < g.rows * g.cols :=
      (Nat.div_lt_iff_lt_mul hc).mp (by omega)
    refine ⟨he1, ?_⟩
    rw [h3]
    have hdiv := (divmod_add_self (a := e.1) hc).1
    have : (e.1 + g.cols) / g.cols < g.rows := by rw [hdiv]; omega
    exact (Nat.div_lt_iff_lt_mul hc).mp this

theorem adj_lt {g : EnvGraph} (hp : proper g) {u v : Nat} (h : adj g u v) :
    u < g.rows * g.cols ∧ v < g.rows * g.cols := by
  rcases h with h | h
  · exact properEdge_lt (hp _ h)
  · exact ⟨(properEdge_lt (hp _ h)).2, (properEdge_lt (hp _ h)).1⟩

theorem mem_nbrs {g : EnvGraph} {u v : Nat} :
    v ∈ nbrs g u ↔ v < g.rows * g.cols ∧ adj g u v := by
  simp [nbrs, List.mem_filter, List.mem_range]

theorem mem_reachK_succ {g : EnvGraph} {u k v : Nat} :
    v ∈ reachK g u (k + 1) ↔ v ∈ reachK g u k ∨ ∃ w ∈ reachK g u k, v ∈ nbrs g w := by
  simp [reachK, expand, List.mem_dedup, List.mem_append, List.mem_flatMap]

theorem reachesIn_append {g : EnvGraph} {u w v n : Nat}
    (h : ReachesIn g u w n) (ha : adj g w v) : ReachesIn g u v (n + 1) := by
  induction h with
  | refl x => exact ReachesIn.step ha (ReachesIn.refl v)
  | step h1 _ ih => exact ReachesIn.step h1 (ih ha)

theorem reachesIn_zero {g : EnvGraph} {u v : Nat} (h : ReachesIn g u v 0) : u = v := by
  cases h
  rfl

theorem reachesIn_succ_decomp {g : EnvGraph} {v : Nat} :
    ∀ {n u : Nat}, ReachesIn g u v (n + 1) → ∃ w, ReachesIn g u w n ∧ adj g w v := by
  intro n
  induction n with
  | zero =>
    intro u h
    cases h with
    | step h1 h2 => exact ⟨u, ReachesIn.refl u, (reachesIn_zero h2) ▸ h1⟩
  | succ n ih =>
    intro u h
    cases h with
    | step h1 h2 =>
      obtain ⟨w2, hw2, ha2⟩ := ih h2
      exact ⟨w2, ReachesIn.step h1 hw2, ha2⟩

theorem mem_reachK_iff {g : EnvGraph} (hp : proper g) (u : Nat) :
    ∀ (k v : Nat), v ∈ reachK g u k ↔ ∃ d, d ≤ k ∧ ReachesIn g u v d := by
  intro k
  induction k with
  | zero =>
    intro v
    simp only [reachK, List.mem_singleton]
    constructor
    · rintro rfl
      exact ⟨0, le_refl 0, ReachesIn.refl _⟩
    · rintro ⟨d, hd, hr⟩
      have hd0 : d = 0 := by omega
      subst hd0
      exact (reachesIn_zero hr).symm
  | succ k ih =>
    intro v
    rw [mem_reachK_succ]
    constructor
    · rintro (h | ⟨w, hw, hv⟩)
      · obtain ⟨d, hd, hr⟩ := (ih v).mp h
        exact ⟨d, by omega, hr⟩
      · obtain ⟨d, hd, hr⟩ := (ih w).mp hw
        exact ⟨d + 1, by omega, reachesIn_append hr (mem_nbrs.mp hv).2⟩
    · rintro ⟨d, hd, hr⟩
      by_cases hdk : d ≤ k
      · exact Or.inl ((ih v).mpr ⟨d, hdk, hr⟩)
      · have hdd : d = k + 1 := by omega
        subst hdd
        obtain ⟨w, hw, ha⟩ := reachesIn_succ_decomp hr
        refine Or.inr ⟨w, (ih w).mpr ⟨k, le_refl k, hw⟩, ?_⟩
        rw [mem_nbrs]
        exact ⟨(adj_lt hp ha).2, ha⟩

theorem reachesIn_to_walk {g : EnvGraph} {u v n : Nat} (h : ReachesIn g u v n) :
    ∃ l : List Nat, l.Chain' (adj g) ∧ l.head? = some u ∧ l.getLast? = some v ∧
      l.length = n + 1 := by
  induction h with
  | refl x => exact ⟨[x], by simp, rfl, rfl, rfl⟩
  | @step u2 w2 v2 n2 h1 h2 ih =>
    obtain ⟨l, hc, hh, hl, hlen⟩ := ih
    cases l with
    | nil => simp at hh
    | cons a l' =>
      have haw : a = w2 := by simpa using hh
      refine ⟨u2 :: a :: l', ?_, rfl, ?_, by
        simp only [List.length_cons] at hlen ⊢
        omega⟩
      · rw [List.chain'_cons]
        exact ⟨haw ▸ h1, hc⟩
      · rw [List.getLast?_cons_cons]
        exact hl

theorem walk_to_reachesIn {g : EnvGraph} :
    ∀ (l : List Nat) (u v : Nat), l.Chain' (adj g) → l.head? = some u →
      l.getLast? = some v → ReachesIn g u v (l.length - 1) := by
  intro l
  induction l with
  | nil => intro u v _ hh _; simp at hh
  | cons a l' ih =>
    intro u v hc hh hl
    have hau : a = u := by simpa using hh
    cases l' with
    | nil =>
      have hv : a = v := by simpa using hl
      show ReachesIn g u v 0
      rw [← hau, ← hv]
      exact ReachesIn.refl a
    | cons b l'' =>
      rw [List.chain'_cons] at hc
      have hr := ih b v hc.2 rfl (by rw [← List.getLast?_cons_cons]; exact hl)
      have hlen : (a :: b :: l'').length - 1 = ((b :: l'').length - 1) + 1 := by simp
      rw [hlen]
      exact ReachesIn.step (hau ▸ hc.1) hr

theorem walk_nodes_lt {g : EnvGraph} (hp : proper g) :
    ∀ (l : List Nat) (u : Nat), l.Chain' (adj g) → l.head? = some u →
      u < g.rows * g.cols → ∀ x ∈ l, x < g.rows * g.cols := by
  intro l
  induction l with
  | nil => intro u _ hh; simp at hh
  | cons a l' ih =>
    intro u hc hh hu x hx
    have hau : a = u := by simpa using hh
    rcases List.mem_cons.mp hx with h | h
    · rw [h, hau]; exact hu
    · cases l' with
      | nil => simp at h
      | cons b l'' =>
        rw [List.chain'_cons] at hc
        exact ih b hc.2 rfl (adj_lt hp hc.1).2 x h

theorem not_nodup_decomp {α : Type} :
    ∀ (l : List α), ¬l.Nodup → ∃ l1 x l2 l3, l = l1 ++ x :: l2 ++ x :: l3 := by
  intro l
  induction l with
  | nil => intro h; exact absurd List.nodup_nil h
  | cons a l' ih =>
    intro h
    rw [List.nodup_cons] at h
    push_neg at h
    by_cases ha : a ∈ l'
    · obtain ⟨s, t, hst⟩ := List.append_of_mem ha
      exact ⟨[], a, s, t, by rw [hst]; rfl⟩
    · obtain ⟨l1, x, l2, l3, hd⟩ := ih (h ha)
      exact ⟨a :: l1, x, l2, l3, by rw [hd]; rfl⟩

theorem chain'_cut {α : Type} {R : α → α → Prop} {l1 l2 l3 : List α} {x : α}
    (h : (l1 ++ x :: l2 ++ x :: l3).Chain' R) : (l1 ++ x :: l3).Chain' R := by
  rw [List.chain'_append] at h
  obtain ⟨h12, h3, _⟩ := h
  rw [List.chain'_append] at h12
  obtain ⟨hl1, _, hlink1⟩ := h12
  rw [List.chain'_append]
  refine ⟨hl1, h3, ?_⟩
  intro a ha b hb
  exact hlink1 a ha b (by simpa using hb)

theorem head?_cut {α : Type} (l1 l2 l3 : List α) (x : α) :
    (l1 ++ x :: l2 ++ x :: l3).head? = (l1 ++ x :: l3).head? := by
  cases l1 <;> simp

theorem getLast?_cut {α : Type} (l1 l2 l3 : List α) (x : α) :
    (l1 ++ x :: l2 ++ x :: l3).getLast? = (l1 ++ x :: l3).getLast? := by
  rw [List.getLast?_append_cons, List.getLast?_append_cons]

theorem reachesIn_shorten {g : EnvGraph} (hp : proper g) :
    ∀ (n : Nat) {u v : Nat}, u < g.rows * g.cols → ReachesIn g u v n →
      ∃ d, d < g.rows * g.cols ∧ ReachesIn g u v d := by
  intro n
  induction n using Nat.strong_induction_on with
  | _ n ih =>
    intro u v hu hr
    by_cases hn : n < g.rows * g.cols
    · exact ⟨n, hn, hr⟩
    · obtain ⟨l, hc, hh, hl, hlen⟩ := reachesIn_to_walk hr
      have hxlt : ∀ x ∈ l, x < g.rows * g.cols := walk_nodes_lt hp l u hc hh hu
      have hnd : ¬l.Nodup := by
        intro hnd
        have hsub : l ⊆ List.range (g.rows * g.cols) := fun x hx =>
          List.mem_range.mpr (hxlt x hx)
        have hle := (List.subperm_of_subset hnd hsub).length_le
        rw [List.length_range] at hle
        omega
      obtain ⟨l1, x, l2, l3, hdec⟩ := not_nodup_decomp l hnd
      have hc' : (l1 ++ x :: l3).Chain' (adj g) := chain'_cut (hdec ▸ hc)
      have hh' : (l1 ++ x :: l3).head? = some u := by
        rw [← head?_cut l1 l2 l3 x, ← hdec]
        exact hh
      have hl' : (l1 ++ x :: l3).getLast? = some v := by
        rw [← getLast?_cut l1 l2 l3 x, ← hdec]
        exact hl
      have hr' := walk_to_reachesIn (l1 ++ x :: l3) u v hc' hh' hl'
      have hlt : (l1 ++ x :: l3).length - 1 < n := by
        have hlen2 : l.length = l1.length + l2.length + l3.length + 2 := by
          rw [hdec]; simp; omega
        have hlen3 : (l1 ++ x :: l3).length = l1.length + l3.length + 1 := by
          simp only [List.length_append, List.length_cons]
          omega
        omega
      exact ih _ hlt hu hr'

theorem contains_true_iff {l : List Nat} {a : Nat} : l.contains a = true ↔ a ∈ l := by
  show l.elem a = true ↔ a ∈ l
  exact List.elem_iff

theorem find?_split {α : Type} {p : α → Bool} :
    ∀ {l : List α} {a : α}, l.find? p = some a →
      p a = true ∧ ∃ l1 l2, l = l1 ++ a :: l2 ∧ ∀ x ∈ l1, p x = false := by
  intro l
  induction l with
  | nil => intro a h; simp at h
  | cons x xs ih =>
    intro a h
    by_cases hx : p x
    · rw [List.find?_cons_of_pos xs hx] at h
      obtain rfl := Option.some.inj h
      exact ⟨hx, [], xs, rfl, by simp⟩
    · rw [List.find?_cons_of_neg xs hx] at h
      obtain ⟨hpa, l1, l2, heq, hfalse⟩ := ih h
      refine ⟨hpa, x :: l1, l2, by rw [List.cons_append, heq], ?_⟩
      intro y hy
      rcases List.mem_cons.mp hy with h1 | h1
      · rw [h1]; simpa using hx
      · exact hfalse y h1

theorem find?_range_least {p : Nat → Bool} {B k : Nat}
    (h : (List.range B).find? p = some k) : p k = true ∧ ∀ j, j < k → p j = false := by
  obtain ⟨hpk, l1, l2, heq, hfalse⟩ := find?_split h
  have hlenB : l1.length < B := by
    have h0 := congrArg List.length heq
    simp only [List.length_range, List.length_append, List.length_cons] at h0
    omega
  have h2 : (List.range B)[l1.length]? = some l1.length := List.getElem?_range hlenB
  have h3 : (l1 ++ k :: l2)[l1.length]? = some k := by
    rw [List.getElem?_append_right (le_refl _)]
    simp
  rw [heq, h3] at h2
  have hk : k = l1.length := Option.some.inj h2
  have hl1 : l1 = List.range k := by
    have h4 : (List.range B).take l1.length = l1 := by
      rw [heq]
      exact List.take_left' rfl
    rw [List.take_range, Nat.min_eq_left (le_of_lt hlenB)] at h4
    rw [hk]
    exact h4.symm
  refine ⟨hpk, ?_⟩
  intro j hj
  apply hfalse
  rw [hl1]
  exact List.mem_range.mpr (by omega)

theorem find?_range_of_exists {p : Nat → Bool} {B k : Nat} (hk : k < B) (hpk : p k = true) :
    ∃ j, (List.range B).find? p = some j := by
  cases hfind : (List.range B).find? p with
  | none =>
    rw [List.find?_eq_none] at hfind
    exact absurd hpk (by simpa using hfind k (List.mem_range.mpr hk))
  | some j => exact ⟨j, rfl⟩

theorem bfsDist_spec {g : EnvGraph} (hp : proper g) {u v d : Nat}
    (h : bfsDist g u v = some d) :
    ReachesIn g u v d ∧ ∀ m, ReachesIn g u v m → d ≤ m := by
  unfold bfsDist at h
  obtain ⟨hpd, hleast⟩ := find?_range_least h
  have hmem : v ∈ reachK g u d := contains_true_iff.mp hpd
  obtain ⟨e, he, hr⟩ := (mem_reachK_iff hp u d v).mp hmem
  have hde : e = d := by
    by_contra hne
    have helt : e < d := by omega
    have hmeme : v ∈ reachK g u e := (mem_reachK_iff hp u e v).mpr ⟨e, le_refl e, hr⟩
    have hfe := hleast e helt
    rw [← contains_true_iff] at hmeme
    rw [hmeme] at hfe
    simp at hfe
  subst hde
  refine ⟨hr, ?_⟩
  intro m hm
  by_contra hmd
  push_neg at hmd
  have hmemm : v ∈ reachK g u m := (mem_reachK_iff hp u m v).mpr ⟨m, le_refl m, hm⟩
  have hfm := hleast m hmd
  rw [← contains_true_iff] at hmemm
  rw [hmemm] at hfm
  simp at hfm

theorem bfsDist_exists {g : EnvGraph} (hp : proper g) {u v : Nat}
    (hreach : ∃ n, ReachesIn g u v n) (hu : u < g.rows * g.cols ∨ u = v) :
    ∃ d, bfsDist g u v = some d := by
  rcases hu with hu | rfl
  · obtain ⟨n, hn⟩ := hreach
    obtain ⟨d, hdlt, hr⟩ := reachesIn_shorten hp n hu hn
    have hmem : v ∈ reachK g u d := (mem_reachK_iff hp u d v).mpr ⟨d, le_refl d, hr⟩
    unfold bfsDist
    exact find?_range_of_exists (by omega) (contains_true_iff.mpr hmem)
  · unfold bfsDist
    refine find?_range_of_exists (k := 0) (by omega) ?_
    apply contains_true_iff.mpr
    simp [reachK]

theorem bfsDist_succ_nbr {g : EnvGraph} (hp : proper g) {u t k : Nat}
    (h : bfsDist g u t = some (k + 1)) :
    ∃ w, w ∈ nbrs g u ∧ bfsDist g w t = some k := by
  obtain ⟨hr, hmin⟩ := bfsDist_spec hp h
  cases hr with
  | @step _ w _ _ h1 h2 =>
    have hw : w < g.rows * g.cols := (adj_lt hp h1).2
    obtain ⟨d, hd⟩ := bfsDist_exists hp ⟨k, h2⟩ (Or.inl hw)
    obtain ⟨hrd, hmind⟩ := bfsDist_spec hp hd
    have hdk : d ≤ k := hmind k h2
    have hkd : k ≤ d := by
      have := hmin (d + 1) (ReachesIn.step h1 hrd)
      omega
    have hde : d = k := le_antisymm hdk hkd
    exact ⟨w, mem_nbrs.mpr ⟨hw, h1⟩, hde ▸ hd⟩

theorem pathAux_spec {g : EnvGraph} (hp : proper g) (t : Nat) :
    ∀ (k u : Nat), bfsDist g u t = some k →
      (pathAux g t k u).length = k ∧
      (u :: pathAux g t k u).Chain' (adj g) ∧
      (u :: pathAux g t k u).getLast? = some t := by
  intro k
  induction k with
  | zero =>
    intro u h
    obtain ⟨hr, _⟩ := bfsDist_spec hp h
    have hut := reachesIn_zero hr
    have hnil : pathAux g t 0 u = [] := rfl
    exact ⟨rfl, by rw [hnil]; simp, by rw [hnil]; simp [hut]⟩
  | succ k ih =>
    intro u h
    obtain ⟨w0, hw0n, hw0d⟩ := bfsDist_succ_nbr hp h
    have hfind : ∃ w, (nbrs g u).find? (fun w => bfsDist g w t == some k) = some w := by
      cases hf : (nbrs g u).find? (fun w => bfsDist g w t == some k) with
      | none =>
        rw [List.find?_eq_none] at hf
        exact absurd (show (bfsDist g w0 t == some k) = true by simp [hw0d])
          (by simpa using hf w0 hw0n)
      | some w => exact ⟨w, rfl⟩
    obtain ⟨w, hw⟩ := hfind
    have hwp : bfsDist g w t = some k := by
      have h0 := List.find?_some hw
      simpa using h0
    have hwmem : w ∈ nbrs g u := List.mem_of_find?_eq_some hw
    obtain ⟨ihlen, ihchain, ihlast⟩ := ih w hwp
    have hunfold : pathAux g t (k + 1) u = w :: pathAux g t k w := by
      simp only [pathAux, hw]
    rw [hunfold]
    refine ⟨by simp [ihlen], ?_, ?_⟩
    · rw [List.chain'_cons]
      exact ⟨(mem_nbrs.mp hwmem).2, ihchain⟩
    · rw [List.getLast?_cons_cons]
      exact ihlast

theorem applyAction_south (c : Cor) : applyAction c 0 = (c.1 + 1, c.2) := rfl

theorem applyAction_north (c : Cor) : applyAction c 1 = (c.1 - 1, c.2) := rfl

theorem applyAction_east (c : Cor) : applyAction c 2 = (c.1, c.2 + 1) := rfl

theorem applyAction_west (c : Cor) : applyAction c 3 = (c.1, c.2 - 1) := rfl

theorem properEdge_cases {g : EnvGraph} {a b : Nat} (h : properEdge g (a, b)) :
    (a % g.cols + 1 < g.cols ∧ a / g.cols < g.rows ∧ b = a + 1) ∨
    (a / g.cols + 1 < g.rows ∧ a % g.cols < g.cols ∧ b = a + g.cols) := h

theorem decodeActions_length (cols : Nat) :
    ∀ (l : List Nat) (a : Nat), (decodeActions cols (a :: l)).length = l.length := by
  intro l
  induction l with
  | nil => intro a; rfl
  | cons b rest ih =>
    intro a
    show (decodeAction cols ((b : Int) - (a : Int)) :: decodeActions cols (b :: rest)).length
      = (b :: rest).length
    simp [ih b]

theorem decode_step {g : EnvGraph} (hp : proper g) (hc2 : 2 ≤ g.cols) {a b : Nat}
    (h : adj g a b) :
    applyAction (node_to_cors g a) (decodeAction g.cols ((b : Int) - (a : Int))) =
      node_to_cors g b := by
  rcases h with h | h
  · rcases properEdge_cases (hp _ h) with ⟨h1, h2, h3⟩ | ⟨h1, h2, h3⟩
    · subst h3
      have hdelta : ((a + 1 : Nat) : Int) - (a : Int) = 1 := by push_cast; ring
      rw [hdelta]
      have hact : decodeAction g.cols 1 = 2 := by
        unfold decodeAction
        rw [if_neg (by omega), if_pos rfl]
      rw [hact, applyAction_east]
      unfold node_to_cors
      obtain ⟨hdiv, hmod⟩ := divmod_succ_eq h1
      rw [hdiv, hmod]
    · subst h3
      have hdelta : ((a + g.cols : Nat) : Int) - (a : Int) = (g.cols : Int) := by
        push_cast; ring
      rw [hdelta]
      have hact : decodeAction g.cols (g.cols : Int) = 0 := by
        unfold decodeAction
        rw [if_neg (by omega), if_neg (by omega), if_neg (by omega)]
      rw [hact, applyAction_south]
      unfold node_to_cors
      obtain ⟨hdiv, hmod⟩ := divmod_add_self (a := a) (c := g.cols) (by omega)
      rw [hdiv, hmod]
  · rcases properEdge_cases (hp _ h) with ⟨h1, h2, h3⟩ | ⟨h1, h2, h3⟩
    · subst h3
      have hdelta : ((b : Nat) : Int) - ((b + 1 : Nat) : Int) = -1 := by push_cast; ring
      rw [hdelta]
      have hact : decodeAction g.cols (-1) = 3 := by
        unfold decodeAction
        rw [if_pos rfl]
      rw [hact, applyAction_west]
      unfold node_to_cors
      obtain ⟨hdiv, hmod⟩ := divmod_succ_eq h1
      rw [hdiv, hmod]
      simp
    · subst h3
      have hdelta : ((b : Nat) : Int) - ((b + g.cols : Nat) : Int) = -(g.cols : Int) := by
        push_cast; ring
      rw [hdelta]
      have hact : decodeAction g.cols (-(g.cols : Int)) = 1 := by
        unfold decodeAction
        rw [if_neg (by omega), if_neg (by omega), if_pos rfl]
      rw [hact, applyAction_north]
      unfold node_to_cors
      obtain ⟨hdiv, hmod⟩ := divmod_add_self (a := b) (c := g.cols) (by omega)
      rw [hdiv, hmod]
      simp

theorem replay_decode {g : EnvGraph} (hp : proper g) (hc2 : 2 ≤ g.cols) :
    ∀ (l : List Nat) (a : Nat), (a :: l).Chain' (adj g) →
      replay (node_to_cors g a) (decodeActions g.cols (a :: l)) =
        l.map (node_to_cors g) := by
  intro l
  induction l with
  | nil => intro a _; rfl
  | cons b rest ih =>
    intro a hc
    rw [List.chain'_cons] at hc
    show replay (node_to_cors g a)
        (decodeAction g.cols ((b : Int) - (a : Int)) :: decodeActions g.cols (b :: rest))
      = (b :: rest).map (node_to_cors g)
    rw [replay, decode_step hp hc2 hc.1, ih b hc.2]
    rfl

theorem node_to_cors_inv {g : EnvGraph} (c : Cor) (hcpos : 0 < g.cols)
    (hcol : c.2 < g.cols) : node_to_cors g (cors_to_node g c) = c := by
  unfold node_to_cors cors_to_node
  have h1 : (c.1 * g.cols + c.2) / g.cols = c.1 := by
    rw [Nat.mul_comm, Nat.mul_add_div hcpos, Nat.div_eq_of_lt hcol]
    omega
  have h2 : (c.1 * g.cols + c.2) % g.cols = c.2 := by
    rw [Nat.mul_comm, Nat.mul_add_mod]
    exact Nat.mod_eq_of_lt hcol
  rw [h1, h2]

theorem reachesIn_src_lt {g : EnvGraph} (hp : proper g) {u v n : Nat}
    (h : ReachesIn g u v n) (hne : u ≠ v) : u < g.rows * g.cols := by
  cases h with
  | refl => exact absurd rfl hne
  | step h1 h2 => exact (adj_lt hp h1).1

/-- C2, amended: on a proper grid graph with at least two columns, whenever
origin and target are connected, `get_path` returns coordinate and action
lists of equal length, that length is the true graph distance (a walk of
that length exists and none shorter does), and replaying the actions from
the origin reproduces the coordinate list exactly.  (With a single column
the action decoding confuses vertical moves with east/west and the replay
property fails; see the counterexample.) -/
theorem c2_get_path_correct (g : EnvGraph) (hp : proper g) (hc2 : 2 ≤ g.cols)
    (origin target : Cor) (hcol : origin.2 < g.cols) (n : Nat)
    (hreach : ReachesIn g (cors_to_node g origin) (cors_to_node g target) n) :
    ∃ cords acts, get_path g origin target = some (cords, acts) ∧
      cords.length = acts.length ∧
      ReachesIn g (cors_to_node g origin) (cors_to_node g target) acts.length ∧
      (∀ m, ReachesIn g (cors_to_node g origin) (cors_to_node g target) m →
        acts.length ≤ m) ∧
      replay origin acts = cords := by
  by_cases heqn : cors_to_node g origin = cors_to_node g target
  · refine ⟨[], [], ?_, rfl, ?_, ?_, rfl⟩
    · unfold get_path
      rw [if_pos heqn]
    · rw [show ([] : List Nat).length = 0 from rfl, heqn]
      exact ReachesIn.refl _
    · intro m _
      simp
  · have hu : cors_to_node g origin < g.rows * g.cols :=
      reachesIn_src_lt hp hreach heqn
    obtain ⟨d, hd⟩ := bfsDist_exists hp ⟨n, hreach⟩ (Or.inl hu)
    obtain ⟨hrd, hmind⟩ := bfsDist_spec hp hd
    obtain ⟨hplen, hpchain, hplast⟩ := pathAux_spec hp _ d _ hd
    have hcomp : get_path g origin target = some
        (((cors_to_node g origin ::
            pathAux g (cors_to_node g target) d (cors_to_node g origin)).map
          (node_to_cors g)).drop 1,
        decodeActions g.cols (cors_to_node g origin ::
          pathAux g (cors_to_node g target) d (cors_to_node g origin))) := by
      unfold get_path
      rw [if_neg heqn, hd]
    have hacts : (decodeActions g.cols (cors_to_node g origin ::
        pathAux g (cors_to_node g target) d (cors_to_node g origin))).length = d := by
      rw [decodeActions_length]
      exact hplen
    have hdrop : ((cors_to_node g origin ::
        pathAux g (cors_to_node g target) d (cors_to_node g origin)).map
          (node_to_cors g)).drop 1 =
        (pathAux g (cors_to_node g target) d (cors_to_node g origin)).map
          (node_to_cors g) := by
      simp
    refine ⟨_, _, hcomp, ?_, ?_, ?_, ?_⟩
    · rw [hacts, hdrop]
      simp [hplen]
    · rw [hacts]
      have hwalk := walk_to_reachesIn _ _ _ hpchain rfl hplast
      simpa [hplen] using hwalk
    · intro m hm
      rw [hacts]
      exact hmind m hm
    · rw [hdrop]
      have hrep := replay_decode hp hc2 _ _ hpchain
      rw [node_to_cors_inv origin (by omega) hcol] at hrep
      exact hrep

/-- C2, counterexample: on the single-column two-cell grid the two cells are
connected, `get_path` maps the southward step to the East action 2 (since
with one column a delta of +1 equals +cols), and replaying the returned
actions from the origin does not reproduce the returned coordinates. -/
theorem c2_counterexample :
    ReachesIn g1 (cors_to_node g1 (0, 0)) (cors_to_node g1 (1, 0)) 1 ∧
    get_path g1 (0, 0) (1, 0) = some ([(1, 0)], [2]) ∧
    replay (0, 0) [2] ≠ [(1, 0)] := by
  refine ⟨?_, by decide, by decide⟩
  show ReachesIn g1 0 1 1
  exact ReachesIn.step (show adj g1 0 1 from Or.inl (by decide)) (ReachesIn.refl 1)

/-- Witness for the amended C2 on the open two-by-two grid. -/
theorem c2_get_path_correct_witness :
    ∃ cords acts, get_path g2 (0, 0) (1, 1) = some (cords, acts) ∧
      cords.length = acts.length ∧
      ReachesIn g2 (cors_to_node g2 (0, 0)) (cors_to_node g2 (1, 1)) acts.length ∧
      (∀ m, ReachesIn g2 (cors_to_node g2 (0, 0)) (cors_to_node g2 (1, 1)) m →
        acts.length ≤ m) ∧
      replay (0, 0) acts = cords := by
  apply c2_get_path_correct g2 (by decide) (by decide) (0, 0) (1, 1) (by decide) 2
  show ReachesIn g2 0 3 2
  exact ReachesIn.step (show adj g2 0 1 from Or.inl (by decide))
    (ReachesIn.step (show adj g2 1 3 from Or.inl (by decide)) (ReachesIn.refl 3))

/-- C5, counterexample: the direction decoding never asserts — a delta of
`+2` between consecutive node indices (neither `±1` nor `±cols` for
`cols = 5`) is silently mapped to the South action 0 by the final `else`
branch, and the whole decoding of such a path is a normal action list. -/
theorem c5_counterexample :
    decodeAction 5 2 = 0 ∧ decodeActions 5 [0, 2] = [0] := ⟨rfl, rfl⟩

/-- C5, amended: the decoder is a total cascade — delta `-1` gives West 3,
`+1` gives East 2, `-cols` gives North 1, and every other delta (the south
delta `+cols` included) falls to the `else` branch and gives South 0; no
assertion or failure exists. -/
theorem c5_decode_cascade (cols : Nat) (delta : Int) (hc2 : 2 ≤ cols) :
    (delta = -1 → decodeAction cols delta = 3) ∧
    (delta = 1 → decodeAction cols delta = 2) ∧
    (delta = -(cols : Int) → decodeAction cols delta = 1) ∧
    (delta ≠ -1 → delta ≠ 1 → delta ≠ -(cols : Int) → decodeAction cols delta = 0) := by
  refine ⟨?_, ?_, ?_, ?_⟩
  · intro h; unfold decodeAction; rw [if_pos h]
  · intro h
    unfold decodeAction
    rw [if_neg (by omega), if_pos h]
  · intro h
    unfold decodeAction
    rw [if_neg (by omega), if_neg (by omega), if_pos h]
  · intro h1 h2 h3
    unfold decodeAction
    rw [if_neg h1, if_neg h2, if_neg h3]

/-- Witness for the amended C5 at `cols = 5`, `delta = -5`. -/
theorem c5_decode_cascade_witness :
    ((-5 : Int) = -1 → decodeAction 5 (-5) = 3) ∧
    ((-5 : Int) = 1 → decodeAction 5 (-5) = 2) ∧
    ((-5 : Int) = -((5 : Nat) : Int) → decodeAction 5 (-5) = 1) ∧
    ((-5 : Int) ≠ -1 → (-5 : Int) ≠ 1 → (-5 : Int) ≠ -((5 : Nat) : Int) →
      decodeAction 5 (-5) = 0) :=
  c5_decode_cascade 5 (-5) (by omega)

theorem getLast?_mem {α : Type} : ∀ {l : List α} {a : α}, l.getLast? = some a → a ∈ l := by
  intro l
  induction l with
  | nil => intro a h; simp at h
  | cons x xs ih =>
    intro a h
    cases xs with
    | nil =>
      have hxa : x = a := by simpa using h
      rw [hxa]
      exact List.mem_singleton_self a
    | cons y ys =>
      rw [List.getLast?_cons_cons] at h
      exact List.mem_cons_of_mem x (ih h)

theorem dropOffFold_spec {g : EnvGraph} {dest : Cor} :
    ∀ (l : List Cor) (bc : Cor) (bl : Nat) (c : Cor) (v : Nat),
      pathLen g bc dest = some bl →
      dropOffFold g dest l (bc, bl) = some (c, v) →
      pathLen g c dest = some v ∧ v ≤ bl ∧
      (∀ x ∈ l, ∃ px, pathLen g x dest = some px ∧ v ≤ px) ∧
      ((c = bc ∧ ∀ x ∈ l, ∀ px, pathLen g x dest = some px → v < px) ∨
        ∃ l1 l2, l = l1 ++ c :: l2 ∧
          ∀ x ∈ l2, ∀ px, pathLen g x dest = some px → v < px) := by
  intro l
  induction l with
  | nil =>
    intro bc bl c v hinv h
    rw [dropOffFold] at h
    obtain hpair := Option.some.inj h
    have hbc : bc = c := congrArg Prod.fst hpair
    have hbl : bl = v := congrArg Prod.snd hpair
    subst hbc
    subst hbl
    exact ⟨hinv, le_refl _, by simp, Or.inl ⟨rfl, by simp⟩⟩
  | cons x xs ih =>
    intro bc bl c v hinv h
    simp only [dropOffFold] at h
    cases hpl : pathLen g x dest with
    | none => rw [hpl] at h; simp at h
    | some pl =>
      rw [hpl] at h
      simp only at h
      by_cases hle : pl ≤ bl
      · rw [if_pos hle] at h
        obtain ⟨p1, p2, p3, p4⟩ := ih x pl c v hpl h
        refine ⟨p1, le_trans p2 hle, ?_, ?_⟩
        · intro y hy
          rcases List.mem_cons.mp hy with h1 | h1
          · exact ⟨pl, by rw [h1]; exact hpl, p2⟩
          · exact p3 y h1
        · rcases p4 with ⟨hc, hstrict⟩ | ⟨l1, l2, hsp, hstrict⟩
          · right
            exact ⟨[], xs, by rw [hc]; rfl, hstrict⟩
          · right
            exact ⟨x :: l1, l2, by rw [List.cons_append, hsp], hstrict⟩
      · rw [if_neg hle] at h
        obtain ⟨p1, p2, p3, p4⟩ := ih bc bl c v hinv h
        have hvpl : v < pl := by omega
        refine ⟨p1, p2, ?_, ?_⟩
        · intro y hy
          rcases List.mem_cons.mp hy with h1 | h1
          · exact ⟨pl, by rw [h1]; exact hpl, le_of_lt hvpl⟩
          · exact p3 y h1
        · rcases p4 with ⟨hc, hstrict⟩ | ⟨l1, l2, hsp, hstrict⟩
          · left
            refine ⟨hc, ?_⟩
            intro y hy px hpx
            rcases List.mem_cons.mp hy with h1 | h1
            · rw [h1, hpl] at hpx
              rw [← Option.some.inj hpx]
              exact hvpl
            · exact hstrict y h1 px hpx
          · right
            exact ⟨x :: l1, l2, by rw [List.cons_append, hsp], hstrict⟩

theorem getOptimal_spec {g : EnvGraph} {st : TaxiState} {i : Nat} {c : Cor} {v : Nat}
    (h : get_optimal_socail_drop_off g st i = some (c, v)) :
    ∃ dest opc opa, st.passDest.get? i = some dest ∧
      compute_optimal_path g st = some (opc, opa) ∧
      pathLen g c dest = some v ∧
      (∀ x ∈ opc, ∃ px, pathLen g x dest = some px ∧ v ≤ px) ∧
      ∃ l1 l2, opc = l1 ++ c :: l2 ∧
        ∀ x ∈ l2, ∀ px, pathLen g x dest = some px → v < px := by
  unfold get_optimal_socail_drop_off at h
  cases hdest : st.passDest.get? i with
  | none => rw [hdest] at h; simp at h
  | some dest =>
    simp only [hdest] at h
    cases hopt : compute_optimal_path g st with
    | none => rw [hopt] at h; simp at h
    | some pair =>
      obtain ⟨opc, opa⟩ := pair
      simp only [hopt] at h
      cases hlast : opc.getLast? with
      | none => rw [hlast] at h; simp at h
      | some lastC =>
        simp only [hlast] at h
        cases hl0 : pathLen g lastC dest with
        | none => rw [hl0] at h; simp at h
        | some l0 =>
          simp only [hl0] at h
          obtain ⟨p1, p2, p3, p4⟩ := dropOffFold_spec opc lastC l0 c v hl0 h
          refine ⟨dest, opc, opa, rfl, rfl, p1, p3, ?_⟩
          rcases p4 with ⟨hc, hstrict⟩ | hdec
          · exfalso
            have hlmem : lastC ∈ opc := getLast?_mem hlast
            have hvl0 : v < l0 := hstrict lastC hlmem l0 hl0
            have hveq : v = l0 := by
              rw [hc] at p1
              rw [hl0] at p1
              exact (Option.some.inj p1).symm
            omega
          · exact hdec

/-- C4, amended: whenever `get_optimal_socail_drop_off` returns a drop-off,
that drop-off lies on the taxi's optimal primary path, its remaining
distance to the candidate's destination is minimal over all path
coordinates, and every strictly later path coordinate has a strictly larger
remaining distance — so ties are broken by the LATEST occurrence on the
path (the loop replaces the best on `<=`), not the earliest. -/
theorem c4_drop_off_spec (g : EnvGraph) (st : TaxiState) (i : Nat) (c : Cor) (v : Nat)
    (h : get_optimal_socail_drop_off g st i = some (c, v)) :
    ∃ dest opc opa, st.passDest.get? i = some dest ∧
      compute_optimal_path g st = some (opc, opa) ∧
      pathLen g c dest = some v ∧
      (∀ x ∈ opc, ∃ px, pathLen g x dest = some px ∧ v ≤ px) ∧
      ∃ l1 l2, opc = l1 ++ c :: l2 ∧
        ∀ x ∈ l2, ∀ px, pathLen g x dest = some px → v < px :=
  getOptimal_spec h

/-- Witness for the amended C4 at the concrete tie scenario `stTie`. -/
theorem c4_drop_off_spec_witness :
    ∃ dest opc opa, stTie.passDest.get? 1 = some dest ∧
      compute_optimal_path g2 stTie = some (opc, opa) ∧
      pathLen g2 (1, 0) dest = some 1 ∧
      (∀ x ∈ opc, ∃ px, pathLen g2 x dest = some px ∧ 1 ≤ px) ∧
      ∃ l1 l2, opc = l1 ++ (1, 0) :: l2 ∧
        ∀ x ∈ l2, ∀ px, pathLen g2 x dest = some px → 1 < px :=
  c4_drop_off_spec g2 stTie 1 (1, 0) 1 (by decide)

/-- C4, counterexample: in the tie scenario the optimal path is
`[(0,1), (0,0), (1,0)]`, the coordinates `(0,1)` and `(1,0)` both have
remaining distance 1 to the candidate destination `(1,1)`, and the chosen
drop-off is `(1,0)` — the LAST minimiser, not the earliest `(0,1)`. -/
theorem c4_counterexample :
    get_optimal_socail_drop_off g2 stTie 1 = some ((1, 0), 1) ∧
    compute_optimal_path g2 stTie = some ([(0, 1), (0, 0), (1, 0)], [2, 3, 0]) ∧
    stTie.passDest.get? 1 = some (1, 1) ∧
    pathLen g2 (0, 1) (1, 1) = some 1 ∧
    pathLen g2 (1, 0) (1, 1) = some 1 ∧
    ((0, 1) : Cor) ≠ (1, 0) := by
  exact ⟨by decide, by decide, rfl, by decide, by decide, by decide⟩

theorem gcpGo_accept {g : EnvGraph} {st : TaxiState} {cor : Cor} {thr : Nat} :
    ∀ (idxs : List Nat) (social : Option Nat) (p d : Option Cor) (s : Option Nat),
      gcpGo g st cor thr idxs social = some (p, d, s) →
      ∀ pc, p = some pc →
      ∃ i startLoc destLoc dc dropLen baseLen,
        s = some i ∧ d = some dc ∧
        st.passStatus.get? i = some 2 ∧
        st.passStart.get? i = some startLoc ∧
        st.passDest.get? i = some destLoc ∧
        pc = startLoc ∧
        get_optimal_socail_drop_off g st i = some (dc, dropLen) ∧
        pathLen g startLoc destLoc = some baseLen ∧
        dropLen < baseLen := by
  intro idxs
  induction idxs with
  | nil =>
    intro social p d s h pc hpc
    rw [gcpGo] at h
    obtain hpair := Option.some.inj h
    have hp : (none : Option Cor) = p := congrArg (fun t => t.1) hpair
    rw [← hp] at hpc
    exact absurd hpc (by simp)
  | cons i rest ih =>
    intro social p d s h pc hpc
    rw [gcpGo] at h
    by_cases hneq : neqPassengerIndex st i = true
    · rw [if_pos hneq] at h
      cases hstat : st.passStatus.get? i with
      | none => rw [hstat] at h; simp at h
      | some stat =>
        simp only [hstat] at h
        by_cases hs2 : stat = 2
        · rw [if_pos hs2] at h
          cases hstart : st.passStart.get? i with
          | none => simp only [hstart] at h; simp at h
          | some startLoc =>
            cases hdest : st.passDest.get? i with
            | none => simp only [hstart, hdest] at h; simp at h
            | some destLoc =>
              simp only [hstart, hdest] at h
              cases hgp : get_path g cor startLoc with
              | none => rw [hgp] at h; simp at h
              | some pr =>
                obtain ⟨cp, ap⟩ := pr
                simp only [hgp] at h
                cases hpl : pathLen g startLoc destLoc with
                | none => rw [hpl] at h; simp at h
                | some curDist =>
                  simp only [hpl] at h
                  by_cases hthr : ap.length ≤ thr
                  · rw [if_pos hthr] at h
                    cases hopt : get_optimal_socail_drop_off g st i with
                    | none => rw [hopt] at h; simp at h
                    | some pr2 =>
                      obtain ⟨dc, dropLen⟩ := pr2
                      simp only [hopt] at h
                      by_cases hge : curDist ≤ dropLen
                      · rw [if_pos hge] at h
                        obtain hpair := Option.some.inj h
                        have hp : (none : Option Cor) = p := congrArg (fun t => t.1) hpair
                        rw [← hp] at hpc
                        exact absurd hpc (by simp)
                      · rw [if_neg hge] at h
                        obtain hpair := Option.some.inj h
                        have hp : some startLoc = p := congrArg (fun t => t.1) hpair
                        have hd : some dc = d := congrArg (fun t => t.2.1) hpair
                        have hs : some i = s := congrArg (fun t => t.2.2) hpair
                        rw [← hp] at hpc
                        have hpcs : pc = startLoc := (Option.some.inj hpc).symm
                        refine ⟨i, startLoc, destLoc, dc, dropLen, curDist,
                          hs.symm, hd.symm, by rw [hstat, hs2], hstart, hdest, hpcs,
                          hopt, hpl, by omega⟩
                  · rw [if_neg hthr] at h
                    exact ih _ _ _ _ h pc hpc
        · rw [if_neg hs2] at h
          exact ih _ _ _ _ h pc hpc
    · rw [if_neg hneq] at h
      exact ih _ _ _ _ h pc hpc

theorem gcpGo_none_drop {g : EnvGraph} {st : TaxiState} {cor : Cor} {thr : Nat} :
    ∀ (idxs : List Nat) (social : Option Nat) (p d : Option Cor) (s : Option Nat),
      gcpGo g st cor thr idxs social = some (p, d, s) → p = none → d = none := by
  intro idxs
  induction idxs with
  | nil =>
    intro social p d s h _
    obtain hpair := Option.some.inj h
    exact (congrArg (fun t => t.2.1) hpair).symm
  | cons i rest ih =>
    intro social p d s h hp
    rw [gcpGo] at h
    by_cases hneq : neqPassengerIndex st i = true
    · rw [if_pos hneq] at h
      cases hstat : st.passStatus.get? i with
      | none => rw [hstat] at h; simp at h
      | some stat =>
        simp only [hstat] at h
        by_cases hs2 : stat = 2
        · rw [if_pos hs2] at h
          cases hstart : st.passStart.get? i with
          | none => simp only [hstart] at h; simp at h
          | some startLoc =>
            cases hdest : st.passDest.get? i with
            | none => simp only [hstart, hdest] at h; simp at h
            | some destLoc =>
              simp only [hstart, hdest] at h
              cases hgp : get_path g cor startLoc with
              | none => rw [hgp] at h; simp at h
              | some pr =>
                obtain ⟨cp, ap⟩ := pr
                simp only [hgp] at h
                cases hpl : pathLen g startLoc destLoc with
                | none => rw [hpl] at h; simp at h
                | some curDist =>
                  simp only [hpl] at h
                  by_cases hthr : ap.length ≤ thr
                  · rw [if_pos hthr] at h
                    cases hopt : get_optimal_socail_drop_off g st i with
                    | none => rw [hopt] at h; simp at h
                    | some pr2 =>
                      obtain ⟨dc, dropLen⟩ := pr2
                      simp only [hopt] at h
                      by_cases hge : curDist ≤ dropLen
                      · rw [if_pos hge] at h
                        obtain hpair := Option.some.inj h
                        exact (congrArg (fun t => t.2.1) hpair).symm
                      · rw [if_neg hge] at h
                        obtain hpair := Option.some.inj h
                        have hp2 : some startLoc = p := congrArg (fun t => t.1) hpair
                        rw [← hp2] at hp
                        simp at hp
                  · rw [if_neg hthr] at h
                    exact ih _ _ _ _ h hp
        · rw [if_neg hs2] at h
          exact ih _ _ _ _ h hp
    · rw [if_neg hneq] at h
      exact ih _ _ _ _ h hp

theorem gcpGo_no_wait {g : EnvGraph} {st : TaxiState} {cor : Cor} {thr : Nat} :
    ∀ (idxs : List Nat) (social : Option Nat),
      (∀ i ∈ idxs, ∃ stat, st.passStatus.get? i = some stat) →
      (∀ i ∈ idxs, neqPassengerIndex st i = true → st.passStatus.get? i ≠ some 2) →
      gcpGo g st cor thr idxs social = some (none, none, social) := by
  intro idxs
  induction idxs with
  | nil => intro social _ _; rw [gcpGo]
  | cons i rest ih =>
    intro social hsome hnw
    rw [gcpGo]
    by_cases hneq : neqPassengerIndex st i = true
    · rw [if_pos hneq]
      obtain ⟨stat, hstat⟩ := hsome i (List.mem_cons_self _ _)
      simp only [hstat]
      have hs2 : stat ≠ 2 := by
        intro he
        exact hnw i (List.mem_cons_self _ _) hneq (by rw [hstat, he])
      rw [if_neg hs2]
      exact ih social (fun j hj => hsome j (List.mem_cons_of_mem _ hj))
        (fun j hj => hnw j (List.mem_cons_of_mem _ hj))
    · rw [if_neg hneq]
      exact ih social (fun j hj => hsome j (List.mem_cons_of_mem _ hj))
        (fun j hj => hnw j (List.mem_cons_of_mem _ hj))

/-- C3, amended: whenever `get_close_passengers` accepts a candidate (the
pick-up component is not None), the returned candidate's drop-off-to-its-
destination distance ALONE is strictly less than the candidate's baseline
pickup-to-destination distance; the pickup-to-drop-off leg along the
taxi's path is not part of the comparison.  When the comparison is not a
strict improvement the opportunity is rejected. -/
theorem c3_accept_strict_improvement (g : EnvGraph) (st : TaxiState) (cor : Cor)
    (thr : Nat) (p d : Option Cor) (s : Option Nat) (pc : Cor)
    (h : get_close_passengers g st cor thr = some (p, d, s)) (hpc : p = some pc) :
    ∃ i startLoc destLoc dc dropLen baseLen,
      s = some i ∧ d = some dc ∧
      st.passStart.get? i = some startLoc ∧
      st.passDest.get? i = some destLoc ∧
      pc = startLoc ∧
      pathLen g dc destLoc = some dropLen ∧
      pathLen g startLoc destLoc = some baseLen ∧
      dropLen < baseLen := by
  obtain ⟨i, startLoc, destLoc, dc, dropLen, baseLen, hs, hd, hstat, hstart, hdest,
    hpcs, hopt, hbase, hlt⟩ :=
    gcpGo_accept (List.range st.numPassengers) none p d s h pc hpc
  obtain ⟨dest2, opc, opa, hdest2, _, hpldc, _, _⟩ := getOptimal_spec hopt
  have hde : dest2 = destLoc := by
    rw [hdest] at hdest2
    exact (Option.some.inj hdest2).symm
  rw [hde] at hpldc
  exact ⟨i, startLoc, destLoc, dc, dropLen, baseLen, hs, hd, hstart, hdest, hpcs,
    hpldc, hbase, hlt⟩

/-- Witness for the amended C3 at the accepting line-grid scenario. -/
theorem c3_accept_strict_improvement_witness :
    ∃ i startLoc destLoc dc dropLen baseLen,
      (some 1 : Option Nat) = some i ∧ (some (0, 2) : Option Cor) = some dc ∧
      stDetour.passStart.get? i = some startLoc ∧
      stDetour.passDest.get? i = some destLoc ∧
      ((0, 1) : Cor) = startLoc ∧
      pathLen gLine dc destLoc = some dropLen ∧
      pathLen gLine startLoc destLoc = some baseLen ∧
      dropLen < baseLen :=
  c3_accept_strict_improvement gLine stDetour (0, 0) 1 (some (0, 1)) (some (0, 2))
    (some 1) (0, 1) (by decide) rfl

/-- C3, counterexample: on the six-cell line, the taxi (own passenger 0,
path through `(0,1) .. (0,5)`) accepts passenger 1 (pickup `(0,1)`,
destination `(0,2)`, drop-off `(0,2)`).  The code's comparison
`0 < 1` (drop-off to destination versus baseline) accepts, but the claim's
resulting distance — drop-off to destination `0` PLUS pickup to drop-off
along the path `1` — equals the baseline `1`, which is not a strict
improvement, so the claim as stated is violated by this acceptance. -/
theorem c3_counterexample :
    get_close_passengers gLine stDetour (0, 0) 1 =
      some (some (0, 1), some (0, 2), some 1) ∧
    stDetour.passDest.get? 1 = some (0, 2) ∧
    pathLen gLine (0, 2) (0, 2) = some 0 ∧
    pathLen gLine (0, 1) (0, 2) = some 1 ∧
    ¬(0 + 1 < 1) := by
  exact ⟨by decide, rfl, by decide, by decide, by omega⟩

/-- C7, amended: when nothing is accepted both the pick-up and drop-off
components are None, and with no other waiting passenger the result is the
explicit empty triple with no error; however the third component is NOT
always None — after a budget-failing waiting candidate it holds that
candidate's index (see the counterexample). -/
theorem c7_no_opportunity_empty :
    (∀ (g : EnvGraph) (st : TaxiState) (cor : Cor) (thr : Nat)
      (p d : Option Cor) (s : Option Nat),
      get_close_passengers g st cor thr = some (p, d, s) → p = none → d = none) ∧
    (∀ (g : EnvGraph) (st : TaxiState) (cor : Cor) (thr : Nat),
      st.numPassengers ≤ st.passStatus.length →
      (∀ i, i < st.numPassengers → neqPassengerIndex st i = true →
        st.passStatus.get? i ≠ some 2) →
      get_close_passengers g st cor thr = some (none, none, none)) := by
  constructor
  · intro g st cor thr p d s h hp
    exact gcpGo_none_drop _ _ _ _ _ h hp
  · intro g st cor thr hlen hnw
    unfold get_close_passengers
    apply gcpGo_no_wait
    · intro i hi
      have hilt : i < st.passStatus.length :=
        lt_of_lt_of_le (List.mem_range.mp hi) hlen
      exact ⟨_, List.get?_eq_get hilt⟩
    · intro i hi
      exact hnw i (List.mem_range.mp hi)

/-- Witness for the amended C7: no waiting passenger gives the explicit
empty triple. -/
theorem c7_no_opportunity_empty_witness :
    get_close_passengers g2 stNoWait (0, 0) 5 = some (none, none, none) :=
  c7_no_opportunity_empty.2 g2 stNoWait (0, 0) 5 (by decide) (by decide)

/-- C7, counterexample: passenger 1 is waiting but out of budget reach
(threshold 0); no candidate satisfies the conditions, yet the returned
triple is `(None, None, 1)` — the third component holds the last waiting
candidate's index instead of None. -/
theorem c7_counterexample :
    get_close_passengers g2 stFar (0, 0) 0 = some (none, none, some 1) := by
  decide

/-- C9: with no destination argument and allocated passenger index 0, the
falsy Python check `if self.passenger_index:` sends the taxi down the
no-passenger branch: both path components are set to the empty lists, the
same as for a taxi with no allocated passenger. -/
theorem c9_passenger_zero (g : EnvGraph) (st : TaxiState)
    (h : st.passengerIndex = some 0) :
    compute_shortest_path g st none = some ([], []) ∧
    compute_shortest_path g { st with passengerIndex := none } none = some ([], []) := by
  constructor
  · simp [compute_shortest_path, h, truthyIdx]
  · simp [compute_shortest_path, truthyIdx]

/-- Witness for C9 at the concrete state `stTie` (passenger index 0). -/
theorem c9_passenger_zero_witness :
    compute_shortest_path g2 stTie none = some ([], []) ∧
    compute_shortest_path g2 { stTie with passengerIndex := none } none =
      some ([], []) :=
  c9_passenger_zero g2 stTie rfl

end MultiTaxi
